import Mathlib

/-!
# TeenyJVM: a shallow embedding of `jvm.c`, `heap.c` and `read_class.c`

The interpreter is embedded as pure functions over explicit state.

Conventions of the embedding

* `int32_t` cells are `Int`s in `[-2^31, 2^31)`; `uint32_t` variables (`top`,
  `counter`, `size`, `capacity`) are `Nat`s, reduced modulo `2^32` where the
  source can make them wrap.
* `a + b`, `a - b`, `a * b` on `int32_t` and conversions to a narrower signed
  type are two's-complement wraparound (`wrap32`, `toI16`, `toI8`): ISO C leaves
  signed overflow open, every two's-complement target wraps, and the
  specification names wraparound as the reference behaviour.
* `a << b`, `a >> b` and `((uint32_t) a) >> b` hand the raw count to the shift
  instruction of the host, which uses its low five bits for a 32-bit operand
  (x86-64 `shl/sar/shr`, AArch64 `lsl/asr/lsr`): the shifts are by `b mod 32`,
  and a left shift keeps the low 32 bits of the result.
* What is left without a result is the outcome `Exec.undefined`: an access
  outside a buffer, the quotient `-2^31 / -1` (a divide error on x86), a
  remainder by a zero method count.
* `exit(ERROR)` is the outcome `Exec.exit 99`; a failed `assert` is `Exec.abort`.
* Memory handed out by `malloc` is not initialised; its contents are supplied
  by a parameter `junk`. `malloc` and `calloc` are taken to succeed.
* `execute` recurses and loops without bound; the embedding counts
  instructions with a `fuel` argument and reports `Exec.timeout` when it is used
  up.
-/

namespace TeenyJVM

/-! ## Machine integers -/

/-- Conversion of an `int` to `uint32_t`: the value modulo `2^32`. -/
def toU32 (x : Int) : Nat := (x % 4294967296).toNat

/-- Conversion of an unsigned value to `int32_t`: the two's-complement reading
of its low 32 bits. -/
def toI32 (n : Nat) : Int :=
  if n % 4294967296 < 2147483648 then ((n % 4294967296 : Nat) : Int)
  else ((n % 4294967296 : Nat) : Int) - 4294967296

/-- Wraparound of a mathematical integer to `int32_t`. -/
def wrap32 (x : Int) : Int := toI32 (toU32 x)

/-- Conversion `(int16_t) n` of a non-negative `int`. -/
def toI16 (n : Nat) : Int :=
  if n % 65536 < 32768 then ((n % 65536 : Nat) : Int)
  else ((n % 65536 : Nat) : Int) - 65536

/-- Conversion `(int8_t) n` of a non-negative `int`. -/
def toI8 (n : Nat) : Int :=
  if n % 256 < 128 then ((n % 256 : Nat) : Int)
  else ((n % 256 : Nat) : Int) - 256

/-- The predicate "is a value of `int32_t`". -/
def isI32 (x : Int) : Prop := -2147483648 ≤ x ∧ x < 2147483648

instance (x : Int) : Decidable (isI32 x) := by
  unfold isI32; exact inferInstance

/-- Bitwise `a & b` on `int32_t`, through the bit patterns. -/
def and32 (a b : Int) : Int := toI32 (toU32 a &&& toU32 b)

/-- Bitwise `a | b` on `int32_t`, through the bit patterns. -/
def or32 (a b : Int) : Int := toI32 (toU32 a ||| toU32 b)

/-- Bitwise `a ^ b` on `int32_t`, through the bit patterns. -/
def xor32 (a b : Int) : Int := toI32 (toU32 a ^^^ toU32 b)

/-! ## Outcomes -/

/-- The value of `const int ERROR = 99;`. -/
def ERROR : Int := 99

/-- Outcome of running a piece of the C program. -/
inductive Exec (α : Type) where
  /-- Normal completion with a value. -/
  | ok (a : α) : Exec α
  /-- The process ended through `exit(code)`. -/
  | exit (code : Int) : Exec α
  /-- An `assert` failed. -/
  | abort : Exec α
  /-- The C source defines no result here. -/
  | undefined : Exec α
  /-- The fuel of the embedding ran out (the C program is still running). -/
  | timeout : Exec α
  deriving Repr, DecidableEq

/-- Sequencing of outcomes: anything but `ok` ends the computation. -/
def Exec.bind {α β : Type} (x : Exec α) (f : α → Exec β) : Exec β :=
  match x with
  | .ok a => f a
  | .exit c => .exit c
  | .abort => .abort
  | .undefined => .undefined
  | .timeout => .timeout

instance : Monad Exec where
  pure := Exec.ok
  bind := Exec.bind

/-- Read of `xs[i]`; outside the buffer the C source defines nothing. -/
def rd (xs : List Int) (i : Nat) : Exec Int :=
  match xs[i]? with
  | some v => .ok v
  | none => .undefined

/-- Write `xs[i] = v`; outside the buffer the C source defines nothing. -/
def wr (xs : List Int) (i : Nat) (v : Int) : Exec (List Int) :=
  if i < xs.length then .ok (xs.set i v) else .undefined

/-- Read of the byte `code[i]` where the index `i` is a `uint32_t` expression. -/
def fetch (code : List Nat) (i : Nat) : Exec Nat :=
  match code[i % 4294967296]? with
  | some b => .ok (b % 256)
  | none => .undefined

/-- A block of `n` cells as returned by `malloc`: contents are whatever the
allocator left there. -/
def malloc_block (junk : Nat → Int) (n : Nat) : List Int :=
  (List.range n).map (fun i => wrap32 (junk i))

/-! ## `read_class.h`: the parsed class -/

/-- The struct `code_attribute_t`: instruction bytes, `uint16_t max_stack`,
`uint16_t max_locals`. -/
structure code_attribute_t where
  code : List Nat
  max_stack : Nat
  max_locals : Nat
  deriving Repr, DecidableEq

/-- The struct `method_t`. -/
structure method_t where
  name : String
  descriptor : String
  code : code_attribute_t
  deriving Repr, DecidableEq

/-- The struct `class_file_t`. An entry of `constant_pool` is the `int32_t`
that `*(int32_t *) info` reads; `methods_count` is `methods.length`. -/
structure class_file_t where
  constant_pool : List Int
  methods : List method_t
  deriving Repr, DecidableEq

/-- The field `methods_count` of `class_file_t`. -/
def class_file_t.methods_count (cls : class_file_t) : Nat := cls.methods.length

/-- The function `get_class` of `read_class.c`: the file is ignored and a class
with one hard-wired `main` is built. -/
def get_class : class_file_t :=
  { constant_pool := []
    methods := [{ name := "main"
                  descriptor := "([Ljava/lang/String;)V"
                  code := { code := [0x08, 0x07, 0x60, 0xb2, 0x10, 0x00, 0xb6, 0xb1, 0x00]
                            max_stack := 10
                            max_locals := 1 } }] }

/-- The function `find_method` of `read_class.c`: linear scan, first match. -/
def find_method (name desc : String) (cls : class_file_t) : Option method_t :=
  cls.methods.find? (fun m => m.name == name && m.descriptor == desc)

/-- The function `find_method_from_index` of `read_class.c`:
`cls->methods[index % cls->methods_count]`, `index` being a `uint16_t`. -/
def find_method_from_index (index : Nat) (cls : class_file_t) : Exec method_t :=
  if cls.methods_count = 0 then .undefined
  else
    match cls.methods[(index % 65536) % cls.methods_count]? with
    | some m => .ok m
    | none => .undefined

/-- The function `get_number_of_parameters` of `read_class.c`: `return 0;`. -/
def get_number_of_parameters (_m : method_t) : Nat := 0

/-! ## `heap.c`: the table of arrays -/

/-- The struct `heap_t`. An entry of `data` is the `int32_t` buffer the stored
pointer addresses; `data` has `capacity` entries, of which the first `size` have
been written by `heap_add`. -/
structure heap_t where
  data : List (List Int)
  size : Nat
  capacity : Nat
  deriving Repr, DecidableEq

/-- The function `heap_init`. -/
def heap_init : heap_t := { data := [], size := 0, capacity := 0 }

/-- The call `realloc(data, n * sizeof(void *))`: the first entries are kept,
new entries are not initialised (an empty buffer stands for such a pointer). -/
def realloc_table (data : List (List Int)) (n : Nat) : List (List Int) :=
  data.take n ++ List.replicate (n - data.length) []

/-- The function `heap_add`: returns the heap after the call and the returned
`int32_t` handle. -/
def heap_add (heap : heap_t) (ptr : List Int) : Exec (heap_t × Int) :=
  let grown : heap_t :=
    if heap.size = heap.capacity then
      let capacity := if heap.capacity ≠ 0 then (heap.capacity * 2) % 4294967296 else 4
      { heap with capacity := capacity, data := realloc_table heap.data capacity }
    else heap
  if grown.size < grown.data.length then
    .ok ({ grown with data := grown.data.set grown.size ptr,
                      size := (grown.size + 1) % 4294967296 },
         toI32 grown.size)
  else .undefined

/-- The function `heap_get`: `assert(ref >= 0 && ref < (int32_t) heap->size)`
then `heap->data[ref]`. -/
def heap_get (heap : heap_t) (ref : Int) : Exec (List Int) :=
  if 0 ≤ ref ∧ ref < toI32 heap.size then
    match heap.data[ref.toNat]? with
    | some p => .ok p
    | none => .undefined
  else .abort

/-! ## `jvm.h`: the opcodes -/

/-- Modelled from the spec: the header `jvm.h` with the enumeration of the
opcodes `i_...` is not among the sources; the constructors are the opcode names
that `jvm.c` switches on. -/
inductive jvm_instruction_t where
  | i_nop | i_iconst_m1 | i_iconst_0 | i_iconst_1 | i_iconst_2 | i_iconst_3
  | i_iconst_4 | i_iconst_5 | i_bipush | i_sipush | i_ldc
  | i_iload | i_aload | i_iload_0 | i_iload_1 | i_iload_2 | i_iload_3
  | i_aload_0 | i_aload_1 | i_aload_2 | i_aload_3 | i_iaload
  | i_istore | i_astore | i_istore_0 | i_istore_1 | i_istore_2 | i_istore_3
  | i_astore_0 | i_astore_1 | i_astore_2 | i_astore_3 | i_iastore | i_dup
  | i_iadd | i_isub | i_imul | i_idiv | i_irem | i_ineg
  | i_ishl | i_ishr | i_iushr | i_iand | i_ior | i_ixor | i_iinc
  | i_ifeq | i_ifne | i_iflt | i_ifge | i_ifgt | i_ifle
  | i_if_icmpeq | i_if_icmpne | i_if_icmplt | i_if_icmpge | i_if_icmpgt
  | i_if_icmple | i_goto | i_ireturn | i_areturn | i_return
  | i_getstatic | i_invokevirtual | i_invokestatic | i_newarray | i_arraylength
  deriving Repr, DecidableEq

open jvm_instruction_t

/-- Modelled from the spec: the numeric values of the enumeration of `jvm.h`,
which is not among the sources; they are the opcode numbers of the Java Virtual
Machine, as the bytes written by `get_class` (`0x08` iconst_5, `0x60` iadd,
`0xb2` getstatic, `0x10` bipush, `0xb6` invokevirtual, `0xb1` return) use them. -/
def jvm_instruction_t.byte : jvm_instruction_t → Nat
  | i_nop => 0x00 | i_iconst_m1 => 0x02 | i_iconst_0 => 0x03 | i_iconst_1 => 0x04
  | i_iconst_2 => 0x05 | i_iconst_3 => 0x06 | i_iconst_4 => 0x07 | i_iconst_5 => 0x08
  | i_bipush => 0x10 | i_sipush => 0x11 | i_ldc => 0x12
  | i_iload => 0x15 | i_aload => 0x19
  | i_iload_0 => 0x1a | i_iload_1 => 0x1b | i_iload_2 => 0x1c | i_iload_3 => 0x1d
  | i_aload_0 => 0x2a | i_aload_1 => 0x2b | i_aload_2 => 0x2c | i_aload_3 => 0x2d
  | i_iaload => 0x2e | i_istore => 0x36 | i_astore => 0x3a
  | i_istore_0 => 0x3b | i_istore_1 => 0x3c | i_istore_2 => 0x3d | i_istore_3 => 0x3e
  | i_astore_0 => 0x4b | i_astore_1 => 0x4c | i_astore_2 => 0x4d | i_astore_3 => 0x4e
  | i_iastore => 0x4f | i_dup => 0x59
  | i_iadd => 0x60 | i_isub => 0x64 | i_imul => 0x68 | i_idiv => 0x6c | i_irem => 0x70
  | i_ineg => 0x74 | i_ishl => 0x78 | i_ishr => 0x7a | i_iushr => 0x7c
  | i_iand => 0x7e | i_ior => 0x80 | i_ixor => 0x82 | i_iinc => 0x84
  | i_ifeq => 0x99 | i_ifne => 0x9a | i_iflt => 0x9b | i_ifge => 0x9c
  | i_ifgt => 0x9d | i_ifle => 0x9e
  | i_if_icmpeq => 0x9f | i_if_icmpne => 0xa0 | i_if_icmplt => 0xa1
  | i_if_icmpge => 0xa2 | i_if_icmpgt => 0xa3 | i_if_icmple => 0xa4
  | i_goto => 0xa7 | i_ireturn => 0xac | i_areturn => 0xb0 | i_return => 0xb1
  | i_getstatic => 0xb2 | i_invokevirtual => 0xb6 | i_invokestatic => 0xb8
  | i_newarray => 0xbc | i_arraylength => 0xbe

/-- All opcodes that `jvm.c` has a `case` for. -/
def jvm_instruction_t.all : List jvm_instruction_t :=
  [i_nop, i_iconst_m1, i_iconst_0, i_iconst_1, i_iconst_2, i_iconst_3,
   i_iconst_4, i_iconst_5, i_bipush, i_sipush, i_ldc,
   i_iload, i_aload, i_iload_0, i_iload_1, i_iload_2, i_iload_3,
   i_aload_0, i_aload_1, i_aload_2, i_aload_3, i_iaload,
   i_istore, i_astore, i_istore_0, i_istore_1, i_istore_2, i_istore_3,
   i_astore_0, i_astore_1, i_astore_2, i_astore_3, i_iastore, i_dup,
   i_iadd, i_isub, i_imul, i_idiv, i_irem, i_ineg,
   i_ishl, i_ishr, i_iushr, i_iand, i_ior, i_ixor, i_iinc,
   i_ifeq, i_ifne, i_iflt, i_ifge, i_ifgt, i_ifle,
   i_if_icmpeq, i_if_icmpne, i_if_icmplt, i_if_icmpge, i_if_icmpgt,
   i_if_icmple, i_goto, i_ireturn, i_areturn, i_return,
   i_getstatic, i_invokevirtual, i_invokestatic, i_newarray, i_arraylength]

/-- The `case` label a byte selects in a `switch (op)`, none for `default`. -/
def decode (op : Nat) : Option jvm_instruction_t :=
  jvm_instruction_t.all.find? (fun i => i.byte == op)

/-! ## `jvm.c`: the kernel of binary operations -/

/-- The struct `optional_value_t`. -/
structure optional_value_t where
  has_value : Bool
  value : Int
  deriving Repr, DecidableEq

/-- The C expression `a / b` on `int32_t` for `b != 0`: truncation toward zero;
the quotient of `-2^31` by `-1` is not representable. -/
def div32 (a b : Int) : Exec Int :=
  if a = -2147483648 ∧ b = -1 then .undefined else .ok (Int.tdiv a b)

/-- The C expression `a % b` on `int32_t` for `b != 0`; not defined where
`a / b` is not representable. -/
def rem32 (a b : Int) : Exec Int :=
  if a = -2147483648 ∧ b = -1 then .undefined else .ok (Int.tmod a b)

/-- The function `binary_arithmetic`: the stack and `*top` after the call. -/
def binary_arithmetic (op : Nat) (stack : List Int) (top : Nat) :
    Exec (List Int × Nat) :=
  if top < 2 then .exit ERROR
  else do
    let b ← rd stack (top - 1)
    let a ← rd stack (top - 2)
    let result ←
      (match decode op with
       | some i_iadd => Exec.ok (wrap32 (a + b))
       | some i_isub => Exec.ok (wrap32 (a - b))
       | some i_imul => Exec.ok (wrap32 (a * b))
       | some i_idiv => if b = 0 then Exec.exit ERROR else div32 a b
       | some i_irem => if b = 0 then Exec.exit ERROR else rem32 a b
       | some i_iand => Exec.ok (and32 a b)
       | some i_ior => Exec.ok (or32 a b)
       | some i_ixor => Exec.ok (xor32 a b)
       | _ => Exec.exit ERROR)
    let stack ← wr stack (top - 2) result
    pure (stack, top - 2 + 1)

/-! ## `jvm.c`: one activation of `execute` -/

/-- The local state of one call of `execute`: the operand stack with its `top`,
the program counter `counter` and the caller-owned `locals`. -/
structure Frame where
  stack : List Int
  top : Nat
  counter : Nat
  locals : List Int
  deriving Repr, DecidableEq

/-- The state shared by all activations: the heap and the integers printed so
far by `printf("%d\n", t)`, oldest first. -/
structure World where
  heap : heap_t
  out : List Int
  deriving Repr, DecidableEq

/-- What one pass through the `while (1)` body does: `break` to the next
instruction, or `return result`. -/
inductive Step where
  | next (f : Frame) (w : World) : Step
  | ret (result : optional_value_t) (f : Frame) (w : World) : Step
  deriving Repr, DecidableEq

/-- The statement `stack[top++] = v`. -/
def push (f : Frame) (v : Int) : Exec Frame := do
  let stack ← wr f.stack f.top v
  pure { f with stack := stack, top := f.top + 1 }

/-- The expression `stack[--top]`, which the source evaluates only after a
check `top >= 1`. -/
def pop (f : Frame) : Exec (Int × Frame) :=
  if f.top = 0 then .undefined
  else do
    let v ← rd f.stack (f.top - 1)
    pure (v, { f with top := f.top - 1 })

/-- The statement `counter += n` on the `uint32_t counter`. -/
def advance (f : Frame) (n : Nat) : Frame :=
  { f with counter := (f.counter + n) % 4294967296 }

/-- The `int` value of `(int16_t)((uint16_t) b1 << 8) | (uint16_t) b2`: the
cast applies to the shifted high byte only, then the low byte is or-ed in. -/
def branch_displacement (b1 b2 : Nat) : Int :=
  or32 (toI16 (b1 <<< 8)) ((b2 % 65536 : Nat) : Int)

/-- The statement `counter += (int16_t)((uint16_t) b1 << 8) | (uint16_t) b2`:
the `int` is converted to `uint32_t` and added modulo `2^32`. -/
def take_branch (f : Frame) (b1 b2 : Nat) : Frame :=
  { f with counter := (f.counter + toU32 (branch_displacement b1 b2)) % 4294967296 }

/-- The handlers `i_ifeq .. i_ifle`, which differ in the test `p a` only. -/
def if_zero (p : Int → Bool) (code : List Nat) (f : Frame) (w : World) : Exec Step :=
  if f.top < 1 then .exit ERROR
  else do
    let (a, f) ← pop f
    let b1 ← fetch code (f.counter + 1)
    let b2 ← fetch code (f.counter + 2)
    if p a then pure (.next (take_branch f b1 b2) w)
    else pure (.next (advance f 3) w)

/-- The handlers `i_if_icmpeq .. i_if_icmple`, which differ in the test `p a b`
only. -/
def if_icmp (p : Int → Int → Bool) (code : List Nat) (f : Frame) (w : World) :
    Exec Step :=
  if f.top < 2 then .exit ERROR
  else do
    let (b, f) ← pop f
    let (a, f) ← pop f
    let b1 ← fetch code (f.counter + 1)
    let b2 ← fetch code (f.counter + 2)
    if p a b then pure (.next (take_branch f b1 b2) w)
    else pure (.next (advance f 3) w)

/-- The C expression `a << b` on `int32_t`. The source hands the raw count to
the host shift, which uses the low five bits of the count; the result is the
shifted bit pattern read as `int32_t`. -/
def shl32 (a b : Int) : Int := wrap32 (a * 2 ^ (toU32 b % 32))

/-- The C expression `a >> b` on `int32_t`: the arithmetic shift (floor of
`a / 2^k`) by the low five bits `k` of the count, as the host shift does. -/
def shr32 (a b : Int) : Int := a / 2 ^ (toU32 b % 32)

/-- The C expression `((uint32_t) a) >> b` stored in an `int32_t`: the logical
shift of the bit pattern by the low five bits of the count, as the host shift
does. -/
def ushr32 (a b : Int) : Int := toI32 (toU32 a >>> (toU32 b % 32))

/-- The handlers `i_ishl`, `i_ishr`, `i_iushr`, which differ in the shift
expression only. -/
def shift_op (sh : Int → Int → Int) (f : Frame) (w : World) : Exec Step :=
  if f.top < 2 then .exit ERROR
  else do
    let (b, f) ← pop f
    let (a, f) ← pop f
    let s := sh a b
    let f ← push f s
    pure (.next (advance f 1) w)

/-- The handlers that push `locals[i]` and add `n` to `counter`. -/
def load_local (i n : Nat) (f : Frame) (w : World) : Exec Step := do
  let v ← rd f.locals i
  let f ← push f v
  pure (.next (advance f n) w)

/-- The handlers that pop into `locals[i]` and add `n` to `counter`. -/
def store_local (i n : Nat) (f : Frame) (w : World) : Exec Step := do
  let (a, f) ← pop f
  let locals ← wr f.locals i a
  pure (.next (advance { f with locals := locals } n) w)

/-- The loop `while (i > 0) { if (top < 1) exit(ERROR); --i; new_locals[i] =
stack[--top]; }` of `i_invokestatic`, started with `i = size`. -/
def pop_arguments : Nat → List Int → Frame → Exec (List Int × Frame)
  | 0, new_locals, f => .ok (new_locals, f)
  | i + 1, new_locals, f =>
    if f.top < 1 then .exit ERROR
    else do
      let (v, f) ← pop f
      let new_locals ← wr new_locals i v
      pop_arguments i new_locals f

/-- The buffer `calloc(count + 1, sizeof(int32_t))` with `arr[0] = count`; for
`count = 2^31 - 1` the request `count + 1` is not a size `calloc` can serve. -/
def new_array (count : Int) : Exec (List Int) :=
  if count = 2147483647 then .undefined
  else wr (List.replicate (count.toNat + 1) 0) 0 count

/-- The cell offset `index + 1` of `arr[index + 1]`. -/
def cell (index : Int) : Exec Nat :=
  if 0 ≤ wrap32 (index + 1) then .ok (wrap32 (index + 1)).toNat else .undefined

/-- One pass through the body of `while (1)` in `execute`: the instruction at
`counter` is decoded and its handler run. `call` is the recursive
`execute(pool, new_locals, class, heap)` of `i_invokestatic`. -/
def step (junk : Nat → Int)
    (call : method_t → List Int → World → Exec (optional_value_t × World))
    (cls : class_file_t) (method : method_t) (f : Frame) (w : World) : Exec Step := do
  let code := method.code.code
  let op ← fetch code f.counter
  match decode op with
  | some i_bipush =>
    let temp ← fetch code (f.counter + 1)
    let f ← push f (toI8 temp)
    pure (.next (advance f 2) w)
  | some i_return => pure (.ret { has_value := false, value := 0 } f w)
  | some i_getstatic => pure (.next (advance f 3) w)
  | some i_invokevirtual =>
    if f.top < 1 then .exit ERROR
    else do
      let (t, f) ← pop f
      pure (.next (advance f 3) { w with out := w.out ++ [t] })
  | some i_iconst_m1 | some i_iconst_0 | some i_iconst_1 | some i_iconst_2
  | some i_iconst_3 | some i_iconst_4 | some i_iconst_5 =>
    let f ← push f ((op : Int) - 0x03)
    pure (.next (advance f 1) w)
  | some i_sipush =>
    let b1 ← fetch code (f.counter + 1)
    let b2 ← fetch code (f.counter + 2)
    let f ← push f (toI16 (b1 <<< 8 ||| b2))
    pure (.next (advance f 3) w)
  | some i_iadd | some i_isub | some i_imul | some i_idiv | some i_irem
  | some i_iand | some i_ior | some i_ixor =>
    let (stack, top) ← binary_arithmetic op f.stack f.top
    pure (.next (advance { f with stack := stack, top := top } 1) w)
  | some i_ineg =>
    if f.top < 1 then .exit ERROR
    else do
      let (a, f) ← pop f
      let f ← push f (wrap32 (a * -1))
      pure (.next (advance f 1) w)
  | some i_ishl => shift_op shl32 f w
  | some i_ishr => shift_op shr32 f w
  | some i_iushr => shift_op ushr32 f w
  | some i_iload | some i_aload =>
    let i ← fetch code (f.counter + 1)
    load_local i 2 f w
  | some i_iload_0 | some i_iload_1 | some i_iload_2 | some i_iload_3 =>
    load_local ((op - i_iload_0.byte) % 256) 1 f w
  | some i_aload_0 | some i_aload_1 | some i_aload_2 | some i_aload_3 =>
    load_local ((op - i_aload_0.byte) % 256) 1 f w
  | some i_istore | some i_astore =>
    if f.top < 1 then .exit ERROR
    else do
      let i ← fetch code (f.counter + 1)
      store_local i 2 f w
  | some i_istore_0 | some i_istore_1 | some i_istore_2 | some i_istore_3 =>
    if f.top < 1 then .exit ERROR
    else store_local ((op - i_istore_0.byte) % 256) 1 f w
  | some i_astore_0 | some i_astore_1 | some i_astore_2 | some i_astore_3 =>
    if f.top < 1 then .exit ERROR
    else store_local ((op - i_astore_0.byte) % 256) 1 f w
  | some i_iinc =>
    let i ← fetch code (f.counter + 1)
    let b ← fetch code (f.counter + 2)
    let v ← rd f.locals i
    let locals ← wr f.locals i (wrap32 (v + toI8 b))
    pure (.next (advance { f with locals := locals } 3) w)
  | some i_ldc =>
    let b ← fetch code (f.counter + 1)
    if b = 0 then .undefined
    else do
      let v ← rd cls.constant_pool (b - 1)
      let f ← push f v
      pure (.next (advance f 2) w)
  | some i_ifeq => if_zero (fun a => decide (a = 0)) code f w
  | some i_ifne => if_zero (fun a => decide (a ≠ 0)) code f w
  | some i_iflt => if_zero (fun a => decide (a < 0)) code f w
  | some i_ifge => if_zero (fun a => decide (a ≥ 0)) code f w
  | some i_ifgt => if_zero (fun a => decide (a > 0)) code f w
  | some i_ifle => if_zero (fun a => decide (a ≤ 0)) code f w
  | some i_if_icmpeq => if_icmp (fun a b => decide (a = b)) code f w
  | some i_if_icmpne => if_icmp (fun a b => decide (a ≠ b)) code f w
  | some i_if_icmplt => if_icmp (fun a b => decide (a < b)) code f w
  | some i_if_icmpge => if_icmp (fun a b => decide (a ≥ b)) code f w
  | some i_if_icmpgt => if_icmp (fun a b => decide (a > b)) code f w
  | some i_if_icmple => if_icmp (fun a b => decide (a ≤ b)) code f w
  | some i_goto =>
    let b1 ← fetch code (f.counter + 1)
    let b2 ← fetch code (f.counter + 2)
    pure (.next (take_branch f b1 b2) w)
  | some i_ireturn | some i_areturn =>
    if f.top < 1 then .exit ERROR
    else do
      let (a, f) ← pop f
      pure (.ret { has_value := true, value := a } f w)
  | some i_invokestatic =>
    let b1 ← fetch code (f.counter + 1)
    let b2 ← fetch code (f.counter + 2)
    let pool ← find_method_from_index ((b1 <<< 8) % 65536 ||| b2) cls
    let size := get_number_of_parameters pool
    let new_locals := malloc_block junk pool.code.max_locals
    let (new_locals, f) ← pop_arguments size new_locals f
    let (rec, w) ← call pool new_locals w
    let f ← if rec.has_value then push f rec.value else pure f
    pure (.next (advance f 3) w)
  | some i_nop => pure (.next (advance f 1) w)
  | some i_dup =>
    if f.top < 1 then .exit ERROR
    else do
      let a ← rd f.stack (f.top - 1)
      let f ← push f a
      pure (.next (advance f 1) w)
  | some i_newarray =>
    if f.top < 1 then .exit ERROR
    else do
      let (count, f) ← pop f
      if count < 0 then .exit ERROR
      else do
        let arr ← new_array count
        let (heap, ref) ← heap_add w.heap arr
        let f ← push f ref
        pure (.next (advance f 2) { w with heap := heap })
  | some i_arraylength =>
    if f.top < 1 then .exit ERROR
    else do
      let (ref, f) ← pop f
      let data ← heap_get w.heap ref
      let n ← rd data 0
      let f ← push f n
      pure (.next (advance f 1) w)
  | some i_iastore =>
    if f.top < 3 then .exit ERROR
    else do
      let (value, f) ← pop f
      let (index, f) ← pop f
      let (ref, f) ← pop f
      let arr ← heap_get w.heap ref
      let k ← cell index
      let arr ← wr arr k value
      pure (.next (advance f 1)
        { w with heap := { w.heap with data := w.heap.data.set ref.toNat arr } })
  | some i_iaload =>
    if f.top < 2 then .exit ERROR
    else do
      let (index, f) ← pop f
      let (ref, f) ← pop f
      let arr ← heap_get w.heap ref
      let k ← cell index
      let v ← rd arr k
      let f ← push f v
      pure (.next (advance f 1) w)
  | none => .exit ERROR

/-- The frame `execute` starts with: a fresh `malloc`ed stack of `max_stack`
cells, `top = 0`, `counter = 0`. -/
def Frame.init (junk : Nat → Int) (method : method_t) (locals : List Int) : Frame :=
  { stack := malloc_block junk method.code.max_stack
    top := 0
    counter := 0
    locals := locals }

/-- The loop of `execute` from a given frame, for at most `fuel` instructions
of this activation (a callee gets the fuel that is left). The outcome carries
the returned `optional_value_t`, the final `locals` and the final world. -/
def run (junk : Nat → Int) (cls : class_file_t) :
    Nat → method_t → Frame → World → Exec (optional_value_t × List Int × World)
  | 0, _, _, _ => .timeout
  | fuel + 1, method, f, w =>
    match step junk
        (fun pool new_locals w1 =>
          match run junk cls fuel pool (Frame.init junk pool new_locals) w1 with
          | .ok (r, _, w2) => .ok (r, w2)
          | .exit c => .exit c
          | .abort => .abort
          | .undefined => .undefined
          | .timeout => .timeout)
        cls method f w with
    | .ok (.next f1 w1) => run junk cls fuel method f1 w1
    | .ok (.ret r f1 w1) => .ok (r, f1.locals, w1)
    | .exit c => .exit c
    | .abort => .abort
    | .undefined => .undefined
    | .timeout => .timeout

/-- The function `execute(method, locals, class, heap)`. -/
def execute (junk : Nat → Int) (fuel : Nat) (method : method_t) (locals : List Int)
    (cls : class_file_t) (w : World) : Exec (optional_value_t × List Int × World) :=
  run junk cls fuel method (Frame.init junk method locals) w

/-- The state after `n` passes through the loop of `execute`: `next f w` when
all `n` passes ended in `break`, the `ret` of the pass that returned otherwise. -/
def steps (junk : Nat → Int)
    (call : method_t → List Int → World → Exec (optional_value_t × World))
    (cls : class_file_t) (method : method_t) : Nat → Frame → World → Exec Step
  | 0, f, w => .ok (.next f w)
  | n + 1, f, w =>
    match step junk call cls method f w with
    | .ok (.next f1 w1) => steps junk call cls method n f1 w1
    | r => r

/-! ## Statements of the specification -/

/-- The decode the specification prescribes for a branch offset,
`(int16_t)((b1 << 8) | b2)`: one combined 16-bit value, then sign-extended. -/
def spec_offset (b1 b2 : Nat) : Int := toI16 (b1 <<< 8 ||| b2)

/-- Number of operands a branch instruction pops; none for other opcodes. -/
def branch_pops : jvm_instruction_t → Option Nat
  | i_goto => some 0
  | i_ifeq | i_ifne | i_iflt | i_ifge | i_ifgt | i_ifle => some 1
  | i_if_icmpeq | i_if_icmpne | i_if_icmplt | i_if_icmpge | i_if_icmpgt
  | i_if_icmple => some 2
  | _ => none

/-- The predicate of a branch instruction, `b` being the top of the stack and
`a` the value below it: `goto` always branches, `ifeq .. ifle` compare `b` with
zero, `if_icmpeq .. if_icmple` compare `a` (left) with `b` (right). -/
def branch_test : jvm_instruction_t → Int → Int → Bool
  | i_goto, _, _ => true
  | i_ifeq, _, b => decide (b = 0)
  | i_ifne, _, b => decide (b ≠ 0)
  | i_iflt, _, b => decide (b < 0)
  | i_ifge, _, b => decide (b ≥ 0)
  | i_ifgt, _, b => decide (b > 0)
  | i_ifle, _, b => decide (b ≤ 0)
  | i_if_icmpeq, a, b => decide (a = b)
  | i_if_icmpne, a, b => decide (a ≠ b)
  | i_if_icmplt, a, b => decide (a < b)
  | i_if_icmpge, a, b => decide (a ≥ b)
  | i_if_icmpgt, a, b => decide (a > b)
  | i_if_icmple, a, b => decide (a ≤ b)
  | _, _, _ => false

/-- The shifts as the specification words them: the count is masked to its low
five bits; `ishl` shifts left and wraps to 32 bits, `ishr` is the arithmetic
right shift, `iushr` the logical right shift of the value viewed as unsigned. -/
def spec_shift : jvm_instruction_t → Int → Int → Int
  | i_ishl, a, b => wrap32 (a * 2 ^ (toU32 b &&& 0x1F))
  | i_ishr, a, b => a >>> (toU32 b &&& 0x1F)
  | i_iushr, a, b => toI32 (toU32 a >>> (toU32 b &&& 0x1F))
  | _, _, _ => 0

/-- The scan behind `spec_param_count`, over the characters after `(`; the flag
says whether the scan is inside a class name `L...;`. A token is one of
`B C S I Z`, or `L<classname>;`; a `[` prefix belongs to the token after it. -/
def count_tokens : Bool → List Char → Nat
  | _, [] => 0
  | true, c :: cs => if c = ';' then count_tokens false cs else count_tokens true cs
  | false, c :: cs =>
    if c = ')' then 0
    else if c = 'L' then 1 + count_tokens true cs
    else if c = '[' then count_tokens false cs
    else if c = 'B' ∨ c = 'C' ∨ c = 'S' ∨ c = 'I' ∨ c = 'Z' then 1 + count_tokens false cs
    else count_tokens false cs

/-- The parameter count the specification prescribes: the number of top-level
type tokens between `(` and `)` of a descriptor. -/
def spec_param_count (descriptor : String) : Nat :=
  match descriptor.toList with
  | '(' :: cs => count_tokens false cs
  | _ => 0

/-! ## Concrete inputs -/

/-- The countdown loop `iinc 0,-1; iload_0; ifgt -4; return`. -/
def countdown : method_t :=
  { name := "countdown", descriptor := "()V"
    code := { code := [0x84, 0x00, 0xff, 0x1a, 0x9d, 0xff, 0xfc, 0xb1]
              max_stack := 1, max_locals := 1 } }

/-- A caller `bipush 7; invokestatic #0; return` with room for two operands. -/
def caller : method_t :=
  { name := "caller", descriptor := "()V"
    code := { code := [0x10, 0x07, 0xb8, 0x00, 0x00, 0xb1]
              max_stack := 2, max_locals := 0 } }

/-- A method made of the one opcode `op` followed by `return`. -/
def single (op : jvm_instruction_t) : method_t :=
  { name := "single", descriptor := "()V"
    code := { code := [op.byte, 0xb1], max_stack := 2, max_locals := 0 } }

/-- The method `if_icmplt +7; return`. -/
def icmp_demo : method_t :=
  { name := "icmp_demo", descriptor := "()V"
    code := { code := [0xa1, 0x00, 0x07, 0xb1], max_stack := 2, max_locals := 0 } }

/-- An allocator that hands out cells holding 7. -/
def junk7 : Nat → Int := fun _ => 7

/-- A callee that returns the value 49 and leaves the world alone. -/
def call49 : method_t → List Int → World → Exec (optional_value_t × World) :=
  fun _ _ w => .ok ({ has_value := true, value := 49 }, w)

/-- A class whose only method is `caller`, so that every index resolves to it. -/
def caller_class : class_file_t := { constant_pool := [], methods := [caller] }

/-- The world at program start: `heap_init()` and nothing printed. -/
def World.start : World := { heap := heap_init, out := [] }

/-- The representation invariant of the heap table: `data` has `capacity`
entries, `size` of them are in use, and `capacity` is 0 or a power of two that
a `uint32_t` holds. -/
def heap_t.wf (h : heap_t) : Prop :=
  h.data.length = h.capacity ∧ h.size ≤ h.capacity ∧
  (h.capacity = 0 ∨ h.capacity ∣ 2147483648)

/-- An outcome that is a normal completion or has no defined result: it is
neither an `exit` nor a failed `assert` nor a timeout. -/
def Exec.quiet {α : Type} (x : Exec α) : Prop := (∃ a, x = .ok a) ∨ x = .undefined

/-- A sequence of `heap_add` calls, one per buffer of the list: the heap after
the last call and the handles returned, in call order. -/
def heap_add_all : heap_t → List (List Int) → Exec (heap_t × List Int)
  | h, [] => .ok (h, [])
  | h, p :: ps => do
    let (h1, r) ← heap_add h p
    let (h2, rs) ← heap_add_all h1 ps
    pure (h2, r :: rs)

/-- A full table of capacity 4 holding four one-cell buffers. -/
def four_arrays : heap_t :=
  { data := [[1], [2], [3], [4]], size := 4, capacity := 4 }

/-- A method with the descriptor `(II)I`. -/
def two_ints : method_t :=
  { name := "add", descriptor := "(II)I"
    code := { code := [0x1a, 0x1b, 0x60, 0xac], max_stack := 2, max_locals := 2 } }

/-- The method `main` that `get_class` builds. -/
def main_method : method_t :=
  { name := "main", descriptor := "([Ljava/lang/String;)V"
    code := { code := [0x08, 0x07, 0x60, 0xb2, 0x10, 0x00, 0xb6, 0xb1, 0x00]
              max_stack := 10, max_locals := 1 } }

/-- A callee `iload_0; ireturn` that returns its local 0 untouched. -/
def reader : method_t :=
  { name := "reader", descriptor := "()I"
    code := { code := [0x1a, 0xac], max_stack := 1, max_locals := 1 } }

/-- A caller `invokestatic #1; invokevirtual; return` that prints what the
callee returns. -/
def reader_caller : method_t :=
  { name := "reader_caller", descriptor := "()V"
    code := { code := [0xb8, 0x00, 0x01, 0xb6, 0x00, 0x00, 0xb1]
              max_stack := 1, max_locals := 0 } }

/-- The class of `reader_caller` (index 0) and `reader` (index 1). -/
def reader_class : class_file_t :=
  { constant_pool := [], methods := [reader_caller, reader] }

/-- The bytes of `iinc 0,-1; iload_0; ifgt -4; return`. -/
def countdown_code : List Nat := [0x84, 0x00, 0xff, 0x1a, 0x9d, 0xff, 0xfc, 0xb1]

/-- The frame of the countdown loop at the `iinc`: empty stack, counter 0 and
`v` in local 0. -/
def countdown_frame (s : List Int) (v : Int) (rest : List Int) : Frame :=
  { stack := s, top := 0, counter := 0, locals := v :: rest }

/-- The frame of `main` after its five instructions `iconst_5, iconst_4, iadd,
getstatic, invokevirtual`: the counter is 9, one past the last code byte. -/
def main_after_print (junk : Nat → Int) : Frame :=
  { stack := ((malloc_block junk 10).set 0 9).set 1 4, top := 0, counter := 9, locals := [0] }

/-- The method `ifeq +3; return`: a conditional branch to the next instruction. -/
def skip3 : method_t :=
  { name := "skip3", descriptor := "()V"
    code := { code := [0x99, 0x00, 0x03, 0xb1], max_stack := 2, max_locals := 0 } }

/-- The program `iconst_2; newarray; dup; iconst_m1; bipush 42; iastore;
arraylength; invokevirtual; return`: it stores 42 at index -1 of a new array of
length 2 and prints the array's length. -/
def length_writer : method_t :=
  { name := "length_writer", descriptor := "()V"
    code := { code := [0x05, 0xbc, 0x0a, 0x59, 0x02, 0x10, 0x2a, 0x4f, 0xbe,
                       0xb6, 0x00, 0x00, 0xb1]
              max_stack := 4, max_locals := 0 } }

/-- The heap after `newarray` of length 2 on the empty heap. -/
def one_array : heap_t :=
  { data := [[2, 0, 0], [], [], []], size := 1, capacity := 4 }

/-- The program `iconst_1; bipush 31; ishl; iconst_m1; op; invokevirtual;
return`: it applies the binary opcode `op` to `a = 1 << 31 = -2^31` and
`b = -1` and prints the result. -/
def min_op (op : jvm_instruction_t) : method_t :=
  { name := "min_op", descriptor := "()V"
    code := { code := [0x04, 0x10, 0x1f, 0x78, 0x02, op.byte, 0xb6, 0x00, 0x00, 0xb1]
              max_stack := 2, max_locals := 0 } }

/-- A caller `bipush 20; bipush 30; invokestatic #1; invokevirtual; return`
that calls method 1 with 20 and 30 on its stack and prints what comes back. -/
def args_caller : method_t :=
  { name := "args_caller", descriptor := "()V"
    code := { code := [0x10, 0x14, 0x10, 0x1e, 0xb8, 0x00, 0x01, 0xb6, 0x00, 0x00, 0xb1]
              max_stack := 3, max_locals := 0 } }

/-- The class of `args_caller` (index 0) and `two_ints` (index 1), the method
`(II)I` that returns the sum of its locals 0 and 1. -/
def args_class : class_file_t :=
  { constant_pool := [], methods := [args_caller, two_ints] }

/-- A callee that prints the locals it is started with, in order, and returns
void. -/
def call_echo : method_t → List Int → World → Exec (optional_value_t × World) :=
  fun _ new_locals w =>
    .ok ({ has_value := false, value := 0 }, { w with out := w.out ++ new_locals })

/-- The program `ldc #1; newarray; return`, which asks for an array of the
length found in slot 1 of the constant pool. -/
def array_of_constant : method_t :=
  { name := "array_of_constant", descriptor := "()V"
    code := { code := [0x12, 0x01, 0xbc, 0x0a, 0xb1], max_stack := 1, max_locals := 0 } }

/-- A class whose constant pool holds the one integer `2^31 - 1`. -/
def max_int_class : class_file_t :=
  { constant_pool := [2147483647], methods := [array_of_constant] }

/-- A class whose constant pool holds the one integer 5. -/
def five_class : class_file_t :=
  { constant_pool := [5], methods := [array_of_constant] }

/-- The heap holding one array of length 1 with the element 5. -/
def short_array : heap_t :=
  { data := [[1, 5], [], [], []], size := 1, capacity := 4 }

/-! ## Basic lemmas -/

@[simp] theorem Exec.ok_bind {α β : Type} (a : α) (f : α → Exec β) :
    (Exec.ok a >>= f) = f a := rfl

@[simp] theorem Exec.exit_bind {α β : Type} (c : Int) (f : α → Exec β) :
    ((Exec.exit c : Exec α) >>= f) = Exec.exit c := rfl

@[simp] theorem Exec.abort_bind {α β : Type} (f : α → Exec β) :
    ((Exec.abort : Exec α) >>= f) = Exec.abort := rfl

@[simp] theorem Exec.undefined_bind {α β : Type} (f : α → Exec β) :
    ((Exec.undefined : Exec α) >>= f) = Exec.undefined := rfl

@[simp] theorem Exec.timeout_bind {α β : Type} (f : α → Exec β) :
    ((Exec.timeout : Exec α) >>= f) = Exec.timeout := rfl

@[simp] theorem Exec.pure_eq {α : Type} (a : α) : (pure a : Exec α) = Exec.ok a := rfl

theorem decode_byte (i : jvm_instruction_t) : decode i.byte = some i := by
  cases i <;> rfl

theorem getElem?_getD (xs : List Int) (j : Nat) (hj : j < xs.length) :
    xs[j]? = some (xs.getD j 0) := by
  simp [List.getD, List.getElem?_eq_getElem hj]

theorem pop_ok (f : Frame) (v : Int) (h0 : f.top ≠ 0) (h : f.stack[f.top - 1]? = some v) :
    pop f = .ok (v, { f with top := f.top - 1 }) := by
  simp [pop, rd, h0, h]

theorem pop2_ok (f : Frame) (a b : Int) (htop : 2 ≤ f.top)
    (h1 : f.stack[f.top - 1]? = some b) (h2 : f.stack[f.top - 2]? = some a) :
    pop f = .ok (b, { f with top := f.top - 1 }) ∧
    pop { f with top := f.top - 1 } = .ok (a, { f with top := f.top - 2 }) := by
  refine ⟨pop_ok f b (by omega) h1, ?_⟩
  have := pop_ok { f with top := f.top - 1 } a (by show f.top - 1 ≠ 0; omega)
    (by show f.stack[f.top - 1 - 1]? = _; rw [show f.top - 1 - 1 = f.top - 2 by omega]; exact h2)
  rw [this]
  simp only [show f.top - 1 - 1 = f.top - 2 by omega]

theorem fetch_lt (code : List Nat) (i b : Nat) (h : fetch code i = .ok b) : b < 256 := by
  unfold fetch at h
  split at h
  · injection h with h; omega
  · cases h

/-! ### Branch offsets -/

theorem or_low_byte (a b : Nat) (hb : b < 256) : 256 * a ||| b = 256 * a + b :=
  (Nat.mul_add_lt_is_or (i := 8) hb a).symm

theorem branch_displacement_eq (b1 b2 : Nat) (h1 : b1 < 256) (h2 : b2 < 256) :
    branch_displacement b1 b2 = spec_offset b1 b2 := by
  have hs : b1 <<< 8 = 256 * b1 := by rw [Nat.shiftLeft_eq]; omega
  have hb : b2 % 65536 = b2 := by omega
  unfold branch_displacement spec_offset or32
  rw [hs, hb, or_low_byte _ _ h2]
  by_cases hlt : b1 < 128
  · have e1 : toU32 (toI16 (256 * b1)) = 256 * b1 := by
      unfold toU32 toI16; split <;> omega
    have e2 : toU32 ((b2 : Nat) : Int) = b2 := by unfold toU32; omega
    rw [e1, e2, or_low_byte _ _ h2]
    unfold toI32 toI16
    split <;> split <;> omega
  · have e1 : toU32 (toI16 (256 * b1)) = 256 * (16776960 + b1) := by
      unfold toU32 toI16; split <;> omega
    have e2 : toU32 ((b2 : Nat) : Int) = b2 := by unfold toU32; omega
    rw [e1, e2, or_low_byte _ _ h2]
    unfold toI32 toI16
    split <;> split <;> omega

theorem take_branch_counter (f : Frame) (b1 b2 : Nat) (h1 : b1 < 256) (h2 : b2 < 256) :
    take_branch f b1 b2
      = { f with counter := (((f.counter : Int) + spec_offset b1 b2) % 4294967296).toNat } := by
  unfold take_branch
  rw [branch_displacement_eq b1 b2 h1 h2]
  congr 1
  unfold toU32
  omega

/-- The dispatch of a branch instruction with enough operands: the operands are
popped, then the branch is taken or the instruction is skipped. -/
theorem step_branch (junk : Nat → Int)
    (call : method_t → List Int → World → Exec (optional_value_t × World))
    (cls : class_file_t) (method : method_t) (f : Frame) (w : World)
    (i : jvm_instruction_t) (k b1 b2 : Nat)
    (hop : fetch method.code.code f.counter = .ok i.byte)
    (hb1 : fetch method.code.code (f.counter + 1) = .ok b1)
    (hb2 : fetch method.code.code (f.counter + 2) = .ok b2)
    (hk : branch_pops i = some k) (htop : k ≤ f.top) (hlen : f.top ≤ f.stack.length) :
    step junk call cls method f w
      = .ok (.next
          (if branch_test i (f.stack.getD (f.top - 2) 0) (f.stack.getD (f.top - 1) 0) = true
           then take_branch { f with top := f.top - k } b1 b2
           else advance { f with top := f.top - k } 3) w) := by
  unfold step
  simp only [hop, Exec.ok_bind, decode_byte]
  cases i <;> simp only [branch_pops, Option.some.injEq, reduceCtorEq] at hk <;> subst hk
  case i_goto =>
    simp only [hb1, hb2, Exec.ok_bind, Exec.pure_eq, Nat.sub_zero, branch_test, if_true]
  all_goals
    simp only [branch_test]
    have hp1 := pop_ok f _ (by omega) (getElem?_getD _ (f.top - 1) (by omega))
    first
    | (simp only [if_zero, hp1, hb1, hb2, show ¬ f.top < 1 by omega, if_false, Exec.ok_bind,
         Exec.pure_eq]
       split <;> rfl)
    | (have hp2 := pop_ok { f with top := f.top - 1 } (f.stack.getD (f.top - 2) 0)
          (by show f.top - 1 ≠ 0; omega)
          (by show f.stack[f.top - 1 - 1]? = _
              rw [show f.top - 1 - 1 = f.top - 2 by omega]; exact getElem?_getD _ _ (by omega))
       simp only [if_icmp, hp1, hp2, hb1, hb2, show ¬ f.top < 2 by omega, if_false, Exec.ok_bind,
         Exec.pure_eq, show f.top - 1 - 1 = f.top - 2 by omega]
       split <;> rfl)

/-! ## C1 -/

/-- C1: for immediate bytes `b1`, `b2` the displacement that the branch handlers
add, `(int16_t)((uint16_t) b1 << 8) | (uint16_t) b2`, is the signed 16-bit value
`(int16_t)((b1 << 8) | b2)`, and a taken branch (`goto`, or a conditional whose
predicate holds) pops its operands and sets the counter to the counter of the
branch opcode plus that signed offset, modulo `2^32`. -/
theorem branch_offset_signed16 (junk : Nat → Int)
    (call : method_t → List Int → World → Exec (optional_value_t × World))
    (cls : class_file_t) (method : method_t) (f : Frame) (w : World)
    (i : jvm_instruction_t) (k b1 b2 : Nat)
    (hop : fetch method.code.code f.counter = .ok i.byte)
    (hb1 : fetch method.code.code (f.counter + 1) = .ok b1)
    (hb2 : fetch method.code.code (f.counter + 2) = .ok b2)
    (hk : branch_pops i = some k) (htop : k ≤ f.top) (hlen : f.top ≤ f.stack.length)
    (ht : branch_test i (f.stack.getD (f.top - 2) 0) (f.stack.getD (f.top - 1) 0) = true) :
    branch_displacement b1 b2 = spec_offset b1 b2 ∧
    step junk call cls method f w
      = .ok (.next { f with
                top := f.top - k
                counter := (((f.counter : Int) + spec_offset b1 b2) % 4294967296).toNat } w) := by
  have h1 := fetch_lt _ _ _ hb1
  have h2 := fetch_lt _ _ _ hb2
  refine ⟨branch_displacement_eq b1 b2 h1 h2, ?_⟩
  rw [step_branch junk call cls method f w i k b1 b2 hop hb1 hb2 hk htop hlen, if_pos ht,
    take_branch_counter _ _ _ h1 h2]

/-- C1 at the back edge of the countdown loop: `ifgt` with bytes `ff fc` at
counter 4 and a positive operand goes to counter 0. -/
theorem branch_offset_signed16_witness :
    spec_offset 0xff 0xfc = -4 ∧
    branch_displacement 0xff 0xfc = spec_offset 0xff 0xfc ∧
    step junk7 call49 get_class countdown
        { stack := [5], top := 1, counter := 4, locals := [5] } World.start
      = .ok (.next { stack := [5], top := 1 - 1, locals := [5]
                     counter := (((4 : Nat) + spec_offset 0xff 0xfc) % 4294967296).toNat }
          World.start) :=
  ⟨by decide,
   branch_offset_signed16 junk7 call49 get_class countdown
     { stack := [5], top := 1, counter := 4, locals := [5] } World.start i_ifgt 1 0xff 0xfc
     (by decide) (by decide) (by decide) (by decide) (by decide) (by decide) (by decide)⟩

/-! ### Argument marshalling of `invokestatic` -/

theorem marshal_list (s nl : List Int) (top k : Nat) (v : Int)
    (hk : k + 1 ≤ top) (hlen : top ≤ s.length) (hnl : k + 1 ≤ nl.length)
    (hv : s[top - 1]? = some v) :
    (s.drop (top - 1 - k)).take k ++ (nl.set k v).drop k
      = (s.drop (top - (k + 1))).take (k + 1) ++ nl.drop (k + 1) := by
  apply List.ext_getElem?
  intro j
  have hd : top - 1 - k = top - (k + 1) := by omega
  rw [hd]
  simp only [List.getElem?_append, List.length_take, List.length_drop, List.getElem?_take,
    List.getElem?_drop, List.getElem?_set]
  have m1 : min k (s.length - (top - (k + 1))) = k := by omega
  have m2 : min (k + 1) (s.length - (top - (k + 1))) = k + 1 := by omega
  rw [m1, m2]
  by_cases h1 : j < k
  · simp [h1, show j < k + 1 by omega]
  · by_cases h2 : j = k
    · subst h2
      simp [show top - (j + 1) + j = top - 1 by omega, hv]
      omega
    · simp [h1, show ¬ j < k + 1 by omega]
      rw [if_neg (by omega)]
      congr 1
      omega

theorem pop_arguments_ok (k : Nat) : ∀ (nl : List Int) (f : Frame),
    k ≤ f.top → f.top ≤ f.stack.length → k ≤ nl.length →
    pop_arguments k nl f
      = .ok ((f.stack.drop (f.top - k)).take k ++ nl.drop k, { f with top := f.top - k }) := by
  induction k with
  | zero => intro nl f _ _ _; simp [pop_arguments]
  | succ k ih =>
    intro nl f hk hlen hnl
    have hv := getElem?_getD f.stack (f.top - 1) (by omega)
    have hp := pop_ok f _ (by omega) hv
    have hw : wr nl k (f.stack.getD (f.top - 1) 0)
        = .ok (nl.set k (f.stack.getD (f.top - 1) 0)) := by
      simp [wr]; omega
    have := ih (nl.set k (f.stack.getD (f.top - 1) 0)) { f with top := f.top - 1 }
      (by show k ≤ f.top - 1; omega) (by show f.top - 1 ≤ f.stack.length; omega)
      (by simp; omega)
    simp only [pop_arguments, show ¬ f.top < 1 by omega, if_false, hp, Exec.ok_bind, hw, this]
    simp only [marshal_list f.stack nl f.top k _ hk hlen hnl hv]
    congr 3
    omega

/-! ## C2 -/

/-- C2: an `invokestatic` whose callee returns leaves the caller's `top` at its
value before, minus `get_number_of_parameters(callee)`, plus 1 if the callee
returned a value and plus 0 if it returned void; the stack slots below the
popped arguments are unchanged and the counter advances by 3. The accesses are
assumed to stay inside the stack and the new locals. -/
theorem invokestatic_top (junk : Nat → Int)
    (call : method_t → List Int → World → Exec (optional_value_t × World))
    (cls : class_file_t) (method : method_t) (f : Frame) (w : World)
    (b1 b2 : Nat) (pool : method_t) (rec : optional_value_t) (w1 : World)
    (hop : fetch method.code.code f.counter = .ok i_invokestatic.byte)
    (hb1 : fetch method.code.code (f.counter + 1) = .ok b1)
    (hb2 : fetch method.code.code (f.counter + 2) = .ok b2)
    (hm : find_method_from_index ((b1 <<< 8) % 65536 ||| b2) cls = .ok pool)
    (hk : get_number_of_parameters pool ≤ f.top) (hlen : f.top ≤ f.stack.length)
    (hnl : get_number_of_parameters pool ≤ pool.code.max_locals)
    (hcall : call pool
        ((f.stack.drop (f.top - get_number_of_parameters pool)).take
            (get_number_of_parameters pool)
          ++ (malloc_block junk pool.code.max_locals).drop (get_number_of_parameters pool)) w
        = .ok (rec, w1))
    (hroom : rec.has_value = true → f.top - get_number_of_parameters pool < f.stack.length) :
    ∃ f1 : Frame,
      step junk call cls method f w = .ok (.next f1 w1) ∧
      f1.top = f.top - get_number_of_parameters pool + (if rec.has_value then 1 else 0) ∧
      (∀ j, j < f.top - get_number_of_parameters pool → f1.stack[j]? = f.stack[j]?) ∧
      f1.counter = (f.counter + 3) % 4294967296 ∧
      f1.locals = f.locals := by
  generalize hkk : get_number_of_parameters pool = k at *
  have hargs := pop_arguments_ok k (malloc_block junk pool.code.max_locals) f hk hlen
    (by simp [malloc_block]; omega)
  unfold step
  simp only [hop, Exec.ok_bind, decode_byte, hb1, hb2, hm, hkk, hargs, hcall]
  cases hv : rec.has_value
  · refine ⟨_, rfl, ?_, ?_, rfl, rfl⟩
    · simp [advance]
    · intro j _; rfl
  · have hr := hroom hv
    simp only [push, wr, hr, if_true, Exec.ok_bind, Exec.pure_eq]
    refine ⟨_, rfl, ?_, ?_, rfl, rfl⟩
    · simp [advance]
    · intro j hj
      simp only [advance]
      rw [List.getElem?_set_ne (by omega)]

/-- C2 at `bipush 7; invokestatic #0` with a callee returning 49: `top` goes
from 1 to 2, the slot below is kept, the counter goes from 2 to 5. -/
theorem invokestatic_top_witness :
    ∃ f1 : Frame,
      step junk7 call49 caller_class caller
          { stack := [7, 0], top := 1, counter := 2, locals := [] } World.start
        = .ok (.next f1 World.start) ∧
      f1.top = 1 - get_number_of_parameters caller
          + (if ({ has_value := true, value := 49 } : optional_value_t).has_value then 1 else 0) ∧
      (∀ j, j < 1 - get_number_of_parameters caller → f1.stack[j]? = [(7 : Int), 0][j]?) ∧
      f1.counter = (2 + 3) % 4294967296 ∧
      f1.locals = [] :=
  invokestatic_top junk7 call49 caller_class caller
    { stack := [7, 0], top := 1, counter := 2, locals := [] } World.start 0 0 caller
    { has_value := true, value := 49 } World.start
    (by decide) (by decide) (by decide) (by decide) (by decide) (by decide) (by decide)
    (by rfl) (by decide)

/-! ## C3 -/

/-- C3 as stated fails for a callee with parameters: `invokestatic` takes the
count from `get_number_of_parameters`, which is 0 for every method. Calling the
method `(II)I` with 20 and 30 on the stack pops nothing, the callee starts with
the two cells as the allocator left them (7 and 7) and not with 20 and 30, and
the program prints their sum 14 where the arguments add up to 50. -/
theorem arguments_not_passed_counterexample :
    spec_param_count two_ints.descriptor = 2 ∧
    find_method_from_index 1 args_class = .ok two_ints ∧
    step junk7 call_echo args_class args_caller
        { stack := [20, 30, 7], top := 2, counter := 4, locals := [] } World.start
      = .ok (.next { stack := [20, 30, 7], top := 2, counter := 7, locals := [] }
          { heap := heap_init, out := [7, 7] }) ∧
    execute junk7 20 args_caller [] args_class World.start
      = .ok ({ has_value := false, value := 0 }, [], { heap := heap_init, out := [14] }) := by
  decide

/-- C3, amended: `invokestatic` runs its argument loop with the count
`get_number_of_parameters(M)`, which is 0 for every callee `M`: nothing is
popped and `M` is called on the `max_locals` cells as `malloc` returned them.
The loop itself, started on the caller's stack with any count `k <= top` (and
`k <= max_locals`), pops `k` values and stores `caller_stack[top - k + j]` in
`new_locals[j]` for every `j < k`: the value popped first lands in
`new_locals[k-1]`, the deepest popped value in `new_locals[0]`. -/
theorem invokestatic_arguments (junk : Nat → Int)
    (call : method_t → List Int → World → Exec (optional_value_t × World))
    (cls : class_file_t) (method : method_t) (f : Frame) (w : World)
    (b1 b2 : Nat) (pool : method_t)
    (hop : fetch method.code.code f.counter = .ok i_invokestatic.byte)
    (hb1 : fetch method.code.code (f.counter + 1) = .ok b1)
    (hb2 : fetch method.code.code (f.counter + 2) = .ok b2)
    (hm : find_method_from_index ((b1 <<< 8) % 65536 ||| b2) cls = .ok pool)
    (hlen : f.top ≤ f.stack.length) :
    get_number_of_parameters pool = 0 ∧
    step junk call cls method f w
      = (pop_arguments (get_number_of_parameters pool)
            (malloc_block junk pool.code.max_locals) f >>= fun r =>
          call pool r.1 w >>= fun c =>
            (if c.1.has_value = true then push r.2 c.1.value else pure r.2) >>= fun f1 =>
              Exec.ok (Step.next (advance f1 3) c.2)) ∧
    pop_arguments (get_number_of_parameters pool) (malloc_block junk pool.code.max_locals) f
      = .ok (malloc_block junk pool.code.max_locals, f) ∧
    ∀ k, k ≤ f.top → k ≤ pool.code.max_locals →
      ∃ locals1 : List Int,
        pop_arguments k (malloc_block junk pool.code.max_locals) f
          = .ok (locals1, { f with top := f.top - k }) ∧
        locals1.length = pool.code.max_locals ∧
        ∀ j, j < k → locals1[j]? = f.stack[f.top - k + j]? := by
  have hlenm : (malloc_block junk pool.code.max_locals).length = pool.code.max_locals := by
    simp [malloc_block]
  refine ⟨rfl, ?_, rfl, ?_⟩
  · unfold step
    simp only [hop, Exec.ok_bind, decode_byte, hb1, hb2, hm, get_number_of_parameters,
      pop_arguments]
    cases hc : call pool (malloc_block junk pool.code.max_locals) w with
    | ok r =>
      obtain ⟨rec, w1⟩ := r
      simp only [Exec.ok_bind]
      cases rec.has_value <;> rfl
    | _ => rfl
  · intro k hk hkl
    refine ⟨_, pop_arguments_ok k _ f hk hlen (by rw [hlenm]; exact hkl), ?_, ?_⟩
    · simp only [List.length_append, List.length_take, List.length_drop, hlenm]
      omega
    · intro j hj
      rw [List.getElem?_append_left (by simp; omega)]
      simp [List.getElem?_take, hj]

/-- C3 amended at the call of the method `(II)I` with 20 and 30 on the stack:
the count is 0 and the callee's locals are the allocator's 7 and 7; the loop
started with the count 2 would hand over 20 and 30 in this order. -/
theorem invokestatic_arguments_witness :
    get_number_of_parameters two_ints = 0 ∧
    pop_arguments (get_number_of_parameters two_ints) (malloc_block junk7 two_ints.code.max_locals)
        { stack := [20, 30, 7], top := 2, counter := 4, locals := [] }
      = .ok ([7, 7], { stack := [20, 30, 7], top := 2, counter := 4, locals := [] }) ∧
    ∃ locals1 : List Int,
      pop_arguments 2 (malloc_block junk7 two_ints.code.max_locals)
          { stack := [20, 30, 7], top := 2, counter := 4, locals := [] }
        = .ok (locals1, { stack := [20, 30, 7], top := 2 - 2, counter := 4, locals := [] }) ∧
      locals1.length = two_ints.code.max_locals ∧
      ∀ j, j < 2 → locals1[j]? = [(20 : Int), 30, 7][2 - 2 + j]? :=
  have h := invokestatic_arguments junk7 call49 args_class args_caller
    { stack := [20, 30, 7], top := 2, counter := 4, locals := [] } World.start 0 1 two_ints
    (by decide) (by decide) (by decide) (by decide) (by decide)
  ⟨h.1, h.2.2.1.trans (by decide), h.2.2.2 2 (by decide) (by decide)⟩

/-! ### The arithmetic kernel -/

theorem rd_ok (xs : List Int) (i : Nat) (v : Int) (h : xs[i]? = some v) : rd xs i = .ok v := by
  simp [rd, h]

theorem wr_ok (xs : List Int) (i : Nat) (v : Int) (h : i < xs.length) :
    wr xs i v = .ok (xs.set i v) := by
  simp [wr, h]

theorem lt_length_of_getElem? (xs : List Int) (i : Nat) (v : Int) (h : xs[i]? = some v) :
    i < xs.length := by
  by_contra hc
  rw [List.getElem?_eq_none (by omega)] at h
  cases h

theorem wrap32_eq (x : Int) :
    wrap32 x = if x % 4294967296 < 2147483648 then x % 4294967296
               else x % 4294967296 - 4294967296 := by
  unfold wrap32 toI32 toU32
  split <;> split <;> omega

theorem wrap32_of_isI32 (x : Int) (h : isI32 x) : wrap32 x = x := by
  unfold isI32 at h
  rw [wrap32_eq]
  split <;> omega

theorem tmod_facts (a b : Int) (hb : b ≠ 0) :
    (Int.tmod a b).natAbs < b.natAbs ∧ (0 ≤ a → 0 ≤ Int.tmod a b) ∧
    (a ≤ 0 → Int.tmod a b ≤ 0) := by
  refine ⟨?_, Int.tmod_nonneg b, ?_⟩
  · have hpos : 0 < b.natAbs := Int.natAbs_pos.mpr hb
    rcases a with (m | m) <;> rcases b with (n | n) <;>
      simp only [Int.tmod, Int.natAbs_ofNat, Int.natAbs_neg, Int.natAbs_negSucc, Int.ofNat_eq_coe,
        Int.natAbs_ofNat] <;>
      exact Nat.mod_lt _ (by simp at hpos; omega)
  · intro ha
    rcases a with (m | m)
    · simp only [Int.ofNat_eq_coe] at ha
      have : m = 0 := by omega
      subst this
      simp
    · rcases b with (n | n) <;> simp only [Int.tmod, Int.ofNat_eq_coe] <;> omega


theorem tdiv_isI32 (a b : Int) (ha : isI32 a) (hb0 : b ≠ 0)
    (hov : ¬ (a = -2147483648 ∧ b = -1)) : isI32 (Int.tdiv a b) := by
  unfold isI32 at *
  have hq : (Int.tdiv a b).natAbs = a.natAbs / b.natAbs := Int.natAbs_tdiv a b
  have hle : a.natAbs / b.natAbs ≤ a.natAbs := Nat.div_le_self _ _
  by_cases h1 : b = 1
  · subst h1; simp; omega
  · by_cases h2 : b = -1
    · subst h2
      simp only [Int.reduceNeg, and_true] at hov
      have : Int.tdiv a (-1) = -a := by
        rw [Int.tdiv_neg]; simp
      rw [this]; omega
    · have h3 : 2 ≤ b.natAbs := by omega
      have h4 : a.natAbs / b.natAbs ≤ a.natAbs / 2 := Nat.div_le_div_left h3 (by decide)
      omega

theorem binary_arithmetic_div (i : jvm_instruction_t) (stack : List Int) (top : Nat) (a b : Int)
    (hi : i = i_idiv ∨ i = i_irem)
    (htop : 2 ≤ top) (h1 : stack[top - 1]? = some b) (h2 : stack[top - 2]? = some a) :
    binary_arithmetic i.byte stack top
      = if b = 0 then .exit ERROR
        else if a = -2147483648 ∧ b = -1 then .undefined
        else .ok (stack.set (top - 2) (if i = i_idiv then Int.tdiv a b else Int.tmod a b),
                  top - 1) := by
  have hl := lt_length_of_getElem? _ _ _ h2
  unfold binary_arithmetic
  rcases hi with rfl | rfl <;>
    simp only [show ¬ top < 2 by omega, if_false, rd_ok _ _ _ h1, rd_ok _ _ _ h2, Exec.ok_bind,
      decode_byte, div32, rem32] <;>
    by_cases hb : b = 0 <;>
    simp only [hb, if_true, if_false, Exec.exit_bind] <;>
    by_cases hov : a = -2147483648 ∧ b = -1 <;>
    simp only [hov, if_true, if_false, Exec.undefined_bind, Exec.ok_bind, wr_ok _ _ _ hl,
      Exec.pure_eq, reduceCtorEq] <;>
    first
    | rfl
    | (congr 2; omega)

theorem tmod_isI32 (a b : Int) (hb : isI32 b) (hb0 : b ≠ 0) : isI32 (Int.tmod a b) := by
  have h := (tmod_facts a b hb0).1
  unfold isI32 at *
  omega

theorem mask_count (b : Int) (h0 : 0 ≤ b) (h1 : b < 32) : toU32 b &&& 0x1F = b.toNat := by
  have e : toU32 b = b.toNat := by unfold toU32; omega
  rw [e, show (0x1F : Nat) = 2 ^ 5 - 1 by rfl, Nat.and_pow_two_sub_one_eq_mod]
  omega

/-! ## C4 -/

/-- C4: with `a` second-from-top and `b` on top of a stack with `top >= 2`,
`binary_arithmetic` with opcode `iadd` pops both and pushes `(a + b) mod 2^32`
read as a signed 32-bit integer, leaving `top` reduced by exactly one. -/
theorem iadd_wraps (stack : List Int) (top : Nat) (a b : Int)
    (htop : 2 ≤ top) (h1 : stack[top - 1]? = some b) (h2 : stack[top - 2]? = some a) :
    binary_arithmetic i_iadd.byte stack top
      = .ok (stack.set (top - 2)
              (if (a + b) % 4294967296 < 2147483648 then (a + b) % 4294967296
               else (a + b) % 4294967296 - 4294967296),
             top - 1) ∧
    (stack.set (top - 2)
        (if (a + b) % 4294967296 < 2147483648 then (a + b) % 4294967296
         else (a + b) % 4294967296 - 4294967296))[top - 2]?
      = some (if (a + b) % 4294967296 < 2147483648 then (a + b) % 4294967296
              else (a + b) % 4294967296 - 4294967296) ∧
    isI32 (if (a + b) % 4294967296 < 2147483648 then (a + b) % 4294967296
           else (a + b) % 4294967296 - 4294967296) := by
  have hl := lt_length_of_getElem? _ _ _ h2
  refine ⟨?_, ?_, ?_⟩
  · unfold binary_arithmetic
    simp only [show ¬ top < 2 by omega, if_false, rd_ok _ _ _ h1, rd_ok _ _ _ h2, Exec.ok_bind,
      decode_byte, wr_ok _ _ _ hl, Exec.pure_eq, wrap32_eq]
    congr 2
    omega
  · simp [hl]
  · unfold isI32
    split <;> omega

/-- C4 at the overflow `2147483647 + 1`: the sum wraps to `-2147483648`. -/
theorem iadd_wraps_witness :
    binary_arithmetic i_iadd.byte [2147483647, 1] 2 = .ok ([-2147483648, 1], 1) :=
  (iadd_wraps [2147483647, 1] 2 2147483647 1 (by decide) (by decide) (by decide)).1

/-! ## C5 -/

/-- C5 on the code: on a stack with `top >= 2`, `idiv` and `irem` end the step
and the run with `exit(99)` exactly when the top value `b` is 0, and then push
nothing; for `b != 0` they pop both operands, push the quotient or the
remainder and go on to the next instruction, except at `a = -2^31`, `b = -1`:
the only guard is `b == 0`, so these operands reach `a / b` (`a % b`), which has
no result there, and the step and the run end without one although `b != 0`. -/
theorem division_by_zero_exits (junk : Nat → Int)
    (call : method_t → List Int → World → Exec (optional_value_t × World))
    (cls : class_file_t) (method : method_t) (f : Frame) (w : World)
    (i : jvm_instruction_t) (a b : Int) (fuel : Nat)
    (hi : i = i_idiv ∨ i = i_irem)
    (hop : fetch method.code.code f.counter = .ok i.byte)
    (htop : 2 ≤ f.top) (h1 : f.stack[f.top - 1]? = some b)
    (h2 : f.stack[f.top - 2]? = some a) :
    (step junk call cls method f w = .exit 99 ↔ b = 0) ∧
    (b = 0 → run junk cls (fuel + 1) method f w = .exit 99) ∧
    (b ≠ 0 → ¬ (a = -2147483648 ∧ b = -1) →
      step junk call cls method f w
        = .ok (.next { f with
                  stack := f.stack.set (f.top - 2)
                    (if i = i_idiv then Int.tdiv a b else Int.tmod a b)
                  top := f.top - 1
                  counter := (f.counter + 1) % 4294967296 } w)) ∧
    (a = -2147483648 → b = -1 →
      step junk call cls method f w = .undefined ∧
      run junk cls (fuel + 1) method f w = .undefined) := by
  have hba := binary_arithmetic_div i f.stack f.top a b hi htop h1 h2
  have hstep : ∀ call, step junk call cls method f w
      = (binary_arithmetic i.byte f.stack f.top >>= fun r =>
          Exec.ok (Step.next (advance { f with stack := r.1, top := r.2 } 1) w)) := by
    intro call
    unfold step
    rcases hi with rfl | rfl <;> simp only [hop, Exec.ok_bind, decode_byte] <;> rfl
  refine ⟨?_, ?_, ?_, ?_⟩
  · rw [hstep, hba]
    by_cases hb : b = 0
    · simp only [hb, if_true, Exec.exit_bind, ERROR]
    · simp only [hb, if_false, iff_false]
      by_cases hov : a = -2147483648 ∧ b = -1
      · rw [if_pos hov]
        intro hc
        cases hc
      · rw [if_neg hov]
        intro hc
        cases hc
  · intro hb
    unfold run
    rw [hstep, hba, if_pos hb]
    rfl
  · intro hb hov
    rw [hstep, hba, if_neg hb, if_neg hov]
    rfl
  · intro ha hb
    have hb0 : b ≠ 0 := by omega
    refine ⟨?_, ?_⟩
    · rw [hstep, hba, if_neg hb0, if_pos ⟨ha, hb⟩]
      rfl
    · unfold run
      rw [hstep, hba, if_neg hb0, if_pos ⟨ha, hb⟩]
      rfl

/-- C5 on the code at `-2^31 % -1`: the divisor is not 0 and the step has no
result. -/
theorem division_by_zero_exits_witness :
    (-1 : Int) ≠ 0 ∧
    step junk7 call49 get_class (single i_irem)
        { stack := [-2147483648, -1], top := 2, counter := 0, locals := [] } World.start
      = .undefined :=
  ⟨by decide,
   ((division_by_zero_exits junk7 call49 get_class (single i_irem)
      { stack := [-2147483648, -1], top := 2, counter := 0, locals := [] } World.start i_irem
      (-2147483648) (-1) 0
      (Or.inr rfl) (by decide) (by decide) (by decide) (by decide)).2.2.2 rfl rfl).1⟩

/-! ## C6 -/

/-- C6 on the code: at `a = -2^31`, `b = -1` the handler passes its only guard,
`b == 0`, and evaluates `a / b` (`a % b`), whose quotient `2^31` is not an
`int32_t`: `idiv` and `irem` push nothing, where the wrapped quotient is `-2^31`
and the remainder 0, and a program that divides `1 << 31` by `-1` ends without
printing. The other cases of the same `switch` wrap at these operands: `imul`
pushes `-2^31` and the program prints it. -/
theorem idiv_overflow_diverges :
    isI32 (-2147483648) ∧ isI32 (-1) ∧ (-1 : Int) ≠ 0 ∧
    wrap32 (Int.tdiv (-2147483648) (-1)) = -2147483648 ∧
    binary_arithmetic i_idiv.byte [-2147483648, -1] 2 = .undefined ∧
    binary_arithmetic i_idiv.byte [-2147483648, -1] 2
      ≠ .ok ([wrap32 (Int.tdiv (-2147483648) (-1)), -1], 1) ∧
    binary_arithmetic i_irem.byte [-2147483648, -1] 2 = .undefined ∧
    binary_arithmetic i_irem.byte [-2147483648, -1] 2
      ≠ .ok ([(-2147483648) - (-1) * wrap32 (Int.tdiv (-2147483648) (-1)), -1], 1) ∧
    binary_arithmetic i_imul.byte [-2147483648, -1] 2 = .ok ([-2147483648, -1], 1) ∧
    execute junk7 10 (min_op i_idiv) [] get_class World.start = .undefined ∧
    execute junk7 10 (min_op i_irem) [] get_class World.start = .undefined ∧
    execute junk7 10 (min_op i_imul) [] get_class World.start
      = .ok ({ has_value := false, value := 0 }, [],
          { heap := heap_init, out := [-2147483648] }) := by
  decide

/-- Division away from the overflow: for 32-bit `a` and `b != 0` other than the
pair `a = -2^31`, `b = -1`, `idiv` pushes the quotient truncated toward zero (it
is a 32-bit value) and `irem` pushes `a - b * (a idiv b)`, which is smaller than
`b` in magnitude and has the sign of the dividend `a` or is zero. -/
theorem idiv_irem_truncate (stack : List Int) (top : Nat) (a b : Int)
    (ha : isI32 a) (hb : isI32 b) (hb0 : b ≠ 0) (hov : ¬ (a = -2147483648 ∧ b = -1))
    (htop : 2 ≤ top) (h1 : stack[top - 1]? = some b) (h2 : stack[top - 2]? = some a) :
    binary_arithmetic i_idiv.byte stack top
      = .ok (stack.set (top - 2) (Int.tdiv a b), top - 1) ∧
    binary_arithmetic i_irem.byte stack top
      = .ok (stack.set (top - 2) (a - b * Int.tdiv a b), top - 1) ∧
    isI32 (Int.tdiv a b) ∧ isI32 (a - b * Int.tdiv a b) ∧
    (a - b * Int.tdiv a b).natAbs < b.natAbs ∧
    (0 ≤ a → 0 ≤ a - b * Int.tdiv a b) ∧ (a ≤ 0 → a - b * Int.tdiv a b ≤ 0) := by
  have hd := binary_arithmetic_div i_idiv stack top a b (Or.inl rfl) htop h1 h2
  have hr := binary_arithmetic_div i_irem stack top a b (Or.inr rfl) htop h1 h2
  rw [if_neg hb0, if_neg hov] at hd hr
  simp only [if_true, reduceCtorEq, if_false] at hd hr
  rw [← Int.tmod_def]
  exact ⟨hd, hr, tdiv_isI32 a b ha hb0 hov, tmod_isI32 a b hb hb0, tmod_facts a b hb0⟩

/-- Division of `-7` by `2`: quotient `-3`, remainder `-1`. -/
theorem idiv_irem_truncate_witness :
    binary_arithmetic i_idiv.byte [-7, 2] 2 = .ok ([-3, 2], 1) ∧
    binary_arithmetic i_irem.byte [-7, 2] 2 = .ok ([-1, 2], 1) :=
  have h := idiv_irem_truncate [-7, 2] 2 (-7) 2 (by decide) (by decide) (by decide)
    (by decide) (by decide) (by decide) (by decide)
  ⟨h.1.trans (by decide), h.2.1.trans (by decide)⟩

/-! ## C7 -/

theorem low_five_bits (n : Nat) : n &&& 0x1F = n % 32 := by
  rw [show (0x1F : Nat) = 2 ^ 5 - 1 by rfl, Nat.and_pow_two_sub_one_eq_mod]

theorem shr_isI32 (a : Int) (k : Nat) (ha : isI32 a) : isI32 (a / 2 ^ k) := by
  unfold isI32 at *
  have hd : (0 : Int) < 2 ^ k := by positivity
  have hd1 : (1 : Int) ≤ 2 ^ k := hd
  rcases le_or_lt 0 a with h | h
  · have h1 := Int.ediv_le_self (2 ^ k) h
    have h2 := Int.ediv_nonneg h (le_of_lt hd)
    omega
  · have h1 : a ≤ a / 2 ^ k := by
      apply Int.le_ediv_of_mul_le hd
      nlinarith
    have h2 := Int.ediv_neg' h hd
    omega

theorem toI32_isI32 (n : Nat) : isI32 (toI32 n) := by
  unfold isI32 toI32
  split <;> omega

theorem spec_shift_isI32 (i : jvm_instruction_t) (a b : Int)
    (hi : i = i_ishl ∨ i = i_ishr ∨ i = i_iushr) (ha : isI32 a) : isI32 (spec_shift i a b) := by
  rcases hi with rfl | rfl | rfl
  · exact toI32_isI32 _
  · simp only [spec_shift, Int.shiftRight_eq_div_pow, Nat.cast_pow, Nat.cast_ofNat]
    exact shr_isI32 a _ ha
  · exact toI32_isI32 _

/-- C7: for every value `a` and every count `b`, negative counts and counts of
32 and more included, `ishl` pops both and pushes `a << (b & 0x1F)` wrapped to
32 bits, `ishr` pushes the arithmetic right shift of `a` by `b & 0x1F`, and
`iushr` the logical right shift of `a` viewed as unsigned by `b & 0x1F`; the
counter advances by 1. Only the low five bits of the count are used: the count
used is below 32 and is `b` itself for `0 <= b <= 31`. -/
theorem shift_masks_count (junk : Nat → Int)
    (call : method_t → List Int → World → Exec (optional_value_t × World))
    (cls : class_file_t) (method : method_t) (f : Frame) (w : World)
    (i : jvm_instruction_t) (a b : Int)
    (hi : i = i_ishl ∨ i = i_ishr ∨ i = i_iushr)
    (hop : fetch method.code.code f.counter = .ok i.byte)
    (htop : 2 ≤ f.top) (h1 : f.stack[f.top - 1]? = some b)
    (h2 : f.stack[f.top - 2]? = some a) :
    step junk call cls method f w
      = .ok (.next { f with
                stack := f.stack.set (f.top - 2) (spec_shift i a b)
                top := f.top - 1
                counter := (f.counter + 1) % 4294967296 } w) ∧
    toU32 b &&& 0x1F < 32 ∧
    (0 ≤ b → b ≤ 31 → toU32 b &&& 0x1F = b.toNat) ∧
    (isI32 a → isI32 (spec_shift i a b)) := by
  have hl := lt_length_of_getElem? _ _ _ h2
  have hm := low_five_bits (toU32 b)
  obtain ⟨hp1, hp2⟩ := pop2_ok f a b htop h1 h2
  refine ⟨?_, by omega, fun h0 h31 => mask_count b h0 (by omega),
    spec_shift_isI32 i a b hi⟩
  unfold step
  rcases hi with rfl | rfl | rfl <;>
    simp only [hop, Exec.ok_bind, decode_byte, shift_op, show ¬ f.top < 2 by omega, if_false,
      hp1, hp2, shl32, shr32, ushr32, push, wr,
      show f.top - 2 < f.stack.length by omega, if_true, Exec.pure_eq, advance, spec_shift, hm,
      Int.shiftRight_eq_div_pow] <;>
    simp only [show f.top - 2 + 1 = f.top - 1 by omega]
  · simp only [Nat.cast_pow, Nat.cast_ofNat]

/-- C7 at `1 << 33`: the count 33 is used as `33 & 0x1F = 1` and 2 is pushed. -/
theorem shift_masks_count_witness :
    step junk7 call49 get_class (single i_ishl)
        { stack := [1, 33], top := 2, counter := 0, locals := [] } World.start
      = .ok (.next { stack := [2, 33], top := 1, counter := 1, locals := [] } World.start) :=
  (shift_masks_count junk7 call49 get_class (single i_ishl)
    { stack := [1, 33], top := 2, counter := 0, locals := [] } World.start i_ishl 1 33
    (Or.inl rfl) (by decide) (by decide) (by decide) (by decide)).1.trans (by decide)
/-! ## C8 -/

theorem getD_of_getElem? (xs : List Int) (j : Nat) (v : Int) (h : xs[j]? = some v) :
    xs.getD j 0 = v := by
  simp [List.getD, h]

/-- C8: each of `if_icmpeq, if_icmpne, if_icmplt, if_icmpge, if_icmpgt,
if_icmple` on a stack with `top >= 2` pops `b` (top) then `a`, compares them as
signed integers with `a` on the left (`a == b, a != b, a < b, a >= b, a > b,
a <= b` respectively), sets the counter to counter + imm16 (modulo `2^32`) if
the predicate holds and to counter + 3 otherwise, and leaves `top` reduced by
exactly 2, with stack cells, locals, heap and output unchanged. -/
theorem if_icmp_compares (junk : Nat → Int)
    (call : method_t → List Int → World → Exec (optional_value_t × World))
    (cls : class_file_t) (method : method_t) (f : Frame) (w : World)
    (i : jvm_instruction_t) (b1 b2 : Nat) (a b : Int)
    (hi : i ∈ [i_if_icmpeq, i_if_icmpne, i_if_icmplt, i_if_icmpge, i_if_icmpgt, i_if_icmple])
    (hop : fetch method.code.code f.counter = .ok i.byte)
    (hb1 : fetch method.code.code (f.counter + 1) = .ok b1)
    (hb2 : fetch method.code.code (f.counter + 2) = .ok b2)
    (htop : 2 ≤ f.top) (h1 : f.stack[f.top - 1]? = some b)
    (h2 : f.stack[f.top - 2]? = some a) :
    step junk call cls method f w
      = .ok (.next { f with
                top := f.top - 2
                counter :=
                  if (i = i_if_icmpeq ∧ a = b) ∨ (i = i_if_icmpne ∧ a ≠ b) ∨
                     (i = i_if_icmplt ∧ a < b) ∨ (i = i_if_icmpge ∧ a ≥ b) ∨
                     (i = i_if_icmpgt ∧ a > b) ∨ (i = i_if_icmple ∧ a ≤ b)
                  then (((f.counter : Int) + spec_offset b1 b2) % 4294967296).toNat
                  else (f.counter + 3) % 4294967296 } w) := by
  have hl := lt_length_of_getElem? _ _ _ h1
  have hk : branch_pops i = some 2 := by
    simp only [List.mem_cons, List.mem_singleton, List.mem_nil_iff, or_false] at hi
    rcases hi with rfl | rfl | rfl | rfl | rfl | rfl <;> rfl
  rw [step_branch junk call cls method f w i 2 b1 b2 hop hb1 hb2 hk htop (by omega),
    getD_of_getElem? _ _ _ h1, getD_of_getElem? _ _ _ h2,
    take_branch_counter _ _ _ (fetch_lt _ _ _ hb1) (fetch_lt _ _ _ hb2)]
  simp only [List.mem_cons, List.mem_singleton, List.mem_nil_iff, or_false] at hi
  rcases hi with rfl | rfl | rfl | rfl | rfl | rfl <;>
    simp only [branch_test, decide_eq_true_eq, reduceCtorEq, false_and, true_and, false_or,
      or_false, advance] <;>
    split <;> rfl

/-- C8 at `if_icmplt +7` with `a = 3`, `b = 10`: the branch is taken to
counter 7 and `top` goes from 2 to 0. -/
theorem if_icmp_compares_witness :
    step junk7 call49 get_class icmp_demo
        { stack := [3, 10], top := 2, counter := 0, locals := [] } World.start
      = .ok (.next { stack := [3, 10], top := 0, counter := 7, locals := [] } World.start) :=
  (if_icmp_compares junk7 call49 get_class icmp_demo
    { stack := [3, 10], top := 2, counter := 0, locals := [] } World.start i_if_icmplt 0 7 3 10
    (by decide) (by decide) (by decide) (by decide) (by decide) (by decide)
    (by decide)).trans (by decide)

/-! ## C9 -/

theorem toI32_of_lt (n : Nat) (h : n < 2147483648) : toI32 n = (n : Int) := by
  unfold toI32
  have : n % 4294967296 = n := by omega
  rw [this, if_pos h]

theorem double_dvd (c : Nat) (hd : c ∣ 2147483648) (hlt : c < 2147483648) :
    c * 2 ∣ 2147483648 := by
  have h31 : (2147483648 : Nat) = 2 ^ 31 := by norm_num
  rw [h31] at hd hlt ⊢
  obtain ⟨k, hk, rfl⟩ := (Nat.dvd_prime_pow Nat.prime_two).1 hd
  have hk1 : k < 31 := by
    by_contra hc
    have : k = 31 := by omega
    subst this
    omega
  rw [← pow_succ]
  exact pow_dvd_pow 2 (by omega)

theorem heap_init_wf : heap_init.wf := by
  simp [heap_t.wf, heap_init]

/-- What `heap_add` does on a well-formed heap with fewer than `2^31` entries. -/
theorem heap_add_wf (h : heap_t) (p : List Int) (hw : h.wf) (hs : h.size < 2147483648) :
    ∃ h1 : heap_t,
      heap_add h p = .ok (h1, (h.size : Int)) ∧ h1.wf ∧ h1.size = h.size + 1 ∧
      h.capacity ≤ h1.capacity ∧
      h1.data[h.size]? = some p ∧
      ∀ r, r < h.size → h1.data[r]? = h.data[r]? := by
  obtain ⟨hlen, hle, hcap⟩ := hw
  have hI : toI32 h.size = (h.size : Int) := toI32_of_lt _ hs
  have hS : (h.size + 1) % 4294967296 = h.size + 1 := by omega
  by_cases hfull : h.size = h.capacity
  · by_cases h0 : h.capacity = 0
    · -- first allocation: capacity 4
      have hsz : h.size = 0 := by omega
      have hd : h.data = [] := List.eq_nil_of_length_eq_zero (by omega)
      refine ⟨{ data := (List.replicate 4 []).set 0 p, size := 1, capacity := 4 },
        ?_, ?_, ?_, ?_, ?_, ?_⟩
      · unfold heap_add
        simp [hfull, h0, realloc_table, hd, hsz, toI32]
      · exact ⟨by simp, (by show 1 ≤ 4; omega),
          Or.inr (by show 4 ∣ 2147483648; exact ⟨536870912, by norm_num⟩)⟩
      · simp [hsz]
      · simp [h0]
      · simp [hsz]
      · intro r hr; omega
    · have hdv : h.capacity ∣ 2147483648 := by
        rcases hcap with h | h
        · exact absurd h h0
        · exact h
      have hclt : h.capacity < 2147483648 := by omega
      have hmod : h.capacity * 2 % 4294967296 = h.capacity * 2 := by omega
      have hlen2 : (realloc_table h.data (h.capacity * 2)).length = h.capacity * 2 := by
        simp [realloc_table]; omega
      refine ⟨{ data := (realloc_table h.data (h.capacity * 2)).set h.size p,
                size := h.size + 1, capacity := h.capacity * 2 }, ?_, ?_, ?_, ?_, ?_, ?_⟩
      · unfold heap_add
        simp only [hfull, h0, if_true, ne_eq, not_false_eq_true, hmod]
        rw [if_pos (by rw [hlen2]; omega), ← hfull, hI, hS]
      · refine ⟨?_, ?_, Or.inr (double_dvd _ hdv hclt)⟩
        · simp [hlen2]
        · show h.size + 1 ≤ h.capacity * 2
          omega
      · rfl
      · show h.capacity ≤ h.capacity * 2
        omega
      · show (List.set _ _ _)[h.size]? = some p
        rw [List.getElem?_set_self (by rw [hlen2]; omega)]
      · intro r hr
        show (List.set _ _ _)[r]? = _
        rw [List.getElem?_set_ne (by omega)]
        unfold realloc_table
        rw [List.getElem?_append_left (by simp; omega), List.take_of_length_le (by omega)]
  · refine ⟨{ data := h.data.set h.size p, size := h.size + 1, capacity := h.capacity },
      ?_, ?_, ?_, ?_, ?_, ?_⟩
    · unfold heap_add
      simp only [hfull, if_false]
      rw [if_pos (by omega), hI, hS]
    · refine ⟨by simp [hlen], ?_, hcap⟩
      show h.size + 1 ≤ h.capacity
      omega
    · rfl
    · exact Nat.le_refl _
    · show (List.set _ _ _)[h.size]? = some p
      rw [List.getElem?_set_self (by omega)]
    · intro r hr
      show (List.set _ _ _)[r]? = _
      rw [List.getElem?_set_ne (by omega)]

/-! ### The array instructions -/

theorem heap_get_ok (h : heap_t) (r : Nat) (p : List Int)
    (hr : r < h.size) (hs : h.size < 2147483648) (hp : h.data[r]? = some p) :
    heap_get h (r : Int) = .ok p := by
  unfold heap_get
  rw [toI32_of_lt _ hs, if_pos ⟨by omega, by omega⟩]
  simp [hp]

theorem cell_ok (index : Int) (h0 : 0 ≤ index) (h1 : index < 2147483647) :
    cell index = .ok (index.toNat + 1) := by
  unfold cell
  have hw : wrap32 (index + 1) = index + 1 := wrap32_of_isI32 _ ⟨by omega, by omega⟩
  rw [hw, if_pos (by omega)]
  congr 1
  omega

theorem step_newarray (junk : Nat → Int)
    (call : method_t → List Int → World → Exec (optional_value_t × World))
    (cls : class_file_t) (method : method_t) (f : Frame) (w : World) (n : Int)
    (hop : fetch method.code.code f.counter = .ok i_newarray.byte)
    (htop : 1 ≤ f.top) (h1 : f.stack[f.top - 1]? = some n)
    (hn0 : 0 ≤ n) (hn1 : n < 2147483647)
    (hw : w.heap.wf) (hs : w.heap.size < 2147483648) :
    ∃ heap1 : heap_t,
      heap_add w.heap (n :: List.replicate n.toNat 0) = .ok (heap1, (w.heap.size : Int)) ∧
      step junk call cls method f w
        = .ok (.next { f with
                  stack := f.stack.set (f.top - 1) (w.heap.size : Int)
                  counter := (f.counter + 2) % 4294967296 }
                { w with heap := heap1 }) := by
  obtain ⟨heap1, hadd, -⟩ := heap_add_wf w.heap (n :: List.replicate n.toNat 0) hw hs
  refine ⟨heap1, hadd, ?_⟩
  have hl := lt_length_of_getElem? _ _ _ h1
  have hp := pop_ok f n (by omega) h1
  have harr : new_array n = .ok (n :: List.replicate n.toNat 0) := by
    unfold new_array wr
    rw [if_neg (by omega), if_pos (by simp)]
    simp [List.replicate_succ]
  unfold step
  simp only [hop, Exec.ok_bind, decode_byte, show ¬ f.top < 1 by omega, if_false, hp,
    show ¬ n < 0 by omega, harr, hadd, push, wr, hl, if_true, Exec.pure_eq, advance]
  simp only [show f.top - 1 + 1 = f.top by omega]

theorem step_arraylength (junk : Nat → Int)
    (call : method_t → List Int → World → Exec (optional_value_t × World))
    (cls : class_file_t) (method : method_t) (f : Frame) (w : World) (ref len : Int)
    (data : List Int)
    (hop : fetch method.code.code f.counter = .ok i_arraylength.byte)
    (htop : 1 ≤ f.top) (h1 : f.stack[f.top - 1]? = some ref)
    (hg : heap_get w.heap ref = .ok data) (hd : data[0]? = some len) :
    step junk call cls method f w
      = .ok (.next { f with
                stack := f.stack.set (f.top - 1) len
                counter := (f.counter + 1) % 4294967296 } w) := by
  have hl := lt_length_of_getElem? _ _ _ h1
  have hp := pop_ok f ref (by omega) h1
  unfold step
  simp only [hop, Exec.ok_bind, decode_byte, show ¬ f.top < 1 by omega, if_false, hp, hg,
    rd_ok _ _ _ hd, push, wr, hl, if_true, Exec.pure_eq, advance]
  simp only [show f.top - 1 + 1 = f.top by omega]

theorem step_iaload (junk : Nat → Int)
    (call : method_t → List Int → World → Exec (optional_value_t × World))
    (cls : class_file_t) (method : method_t) (f : Frame) (w : World) (ref index v : Int)
    (arr : List Int) (k : Nat)
    (hop : fetch method.code.code f.counter = .ok i_iaload.byte)
    (htop : 2 ≤ f.top) (h1 : f.stack[f.top - 1]? = some index)
    (h2 : f.stack[f.top - 2]? = some ref)
    (hg : heap_get w.heap ref = .ok arr) (hc : cell index = .ok k) (hv : arr[k]? = some v) :
    step junk call cls method f w
      = .ok (.next { f with
                stack := f.stack.set (f.top - 2) v
                top := f.top - 1
                counter := (f.counter + 1) % 4294967296 } w) := by
  have hl := lt_length_of_getElem? _ _ _ h2
  obtain ⟨hp1, hp2⟩ := pop2_ok f ref index htop h1 h2
  unfold step
  simp only [hop, Exec.ok_bind, decode_byte, show ¬ f.top < 2 by omega, if_false, hp1, hp2, hg,
    hc, rd_ok _ _ _ hv, push, wr, hl, if_true, Exec.pure_eq, advance]
  simp only [show f.top - 2 + 1 = f.top - 1 by omega]

theorem step_iastore (junk : Nat → Int)
    (call : method_t → List Int → World → Exec (optional_value_t × World))
    (cls : class_file_t) (method : method_t) (f : Frame) (w : World) (ref index value : Int)
    (arr : List Int) (k : Nat)
    (hop : fetch method.code.code f.counter = .ok i_iastore.byte)
    (htop : 3 ≤ f.top) (h1 : f.stack[f.top - 1]? = some value)
    (h2 : f.stack[f.top - 2]? = some index) (h3 : f.stack[f.top - 3]? = some ref)
    (hg : heap_get w.heap ref = .ok arr) (hc : cell index = .ok k) (hk : k < arr.length) :
    step junk call cls method f w
      = .ok (.next { f with top := f.top - 3, counter := (f.counter + 1) % 4294967296 }
          { w with heap := { w.heap with
              data := w.heap.data.set ref.toNat (arr.set k value) } }) := by
  obtain ⟨hp1, hp2⟩ := pop2_ok f index value (by omega) h1 h2
  have hp3 := pop_ok { f with top := f.top - 2 } ref (by show f.top - 2 ≠ 0; omega)
    (by show f.stack[f.top - 2 - 1]? = _; rw [show f.top - 2 - 1 = f.top - 3 by omega]; exact h3)
  unfold step
  simp only [hop, Exec.ok_bind, decode_byte, show ¬ f.top < 3 by omega, if_false, hp1, hp2, hp3,
    hg, hc, wr_ok _ _ _ hk, Exec.pure_eq, advance]
  simp only [show f.top - 2 - 1 = f.top - 3 by omega]

theorem heap_get_set (hp : heap_t) (ref : Int) (arr arr1 : List Int)
    (hg : heap_get hp ref = .ok arr) :
    heap_get { hp with data := hp.data.set ref.toNat arr1 } ref = .ok arr1 := by
  unfold heap_get at hg ⊢
  split at hg
  · rename_i hc
    rw [if_pos hc]
    split at hg
    · rename_i p hp1
      have hl : ref.toNat < hp.data.length := by
        by_contra hcon
        rw [List.getElem?_eq_none (by omega)] at hp1
        cases hp1
      simp only [List.getElem?_set_self hl]
    · cases hg
  · cases hg

/-! ## C11 -/

/-- C11 as stated fails at `n = 2^31 - 1`: the request `calloc(count + 1, ...)`
cannot be served (`count + 1` is not an `int32_t`), `arr[0] = count` has no
buffer to write to, and no handle is pushed. -/
theorem newarray_max_counterexample :
    (0 : Int) ≤ 2147483647 ∧ isI32 2147483647 ∧
    step junk7 call49 get_class (single i_newarray)
        { stack := [2147483647, 0], top := 1, counter := 0, locals := [] } World.start
      = .undefined := by
  decide

/-- C11, amended: for every `n` with `0 <= n < 2^31 - 1` on top of the stack,
`n = 0` included, and a heap table holding fewer than `2^31 - 1` arrays,
`newarray` replaces `n` by a handle `h` (the old heap size), advances the
counter by 2 and grows the heap's size by exactly one; an `arraylength` on `h`
run in the resulting world pushes `n`, and an `iaload` of `h` run there at any
index `0 <= i < n` pushes 0. -/
theorem newarray_then_read (junk : Nat → Int)
    (call : method_t → List Int → World → Exec (optional_value_t × World))
    (cls : class_file_t) (method m2 : method_t) (f g : Frame) (w : World) (n : Int)
    (hop : fetch method.code.code f.counter = .ok i_newarray.byte)
    (htop : 1 ≤ f.top) (h1 : f.stack[f.top - 1]? = some n)
    (hn0 : 0 ≤ n) (hn1 : n < 2147483647)
    (hw : w.heap.wf) (hs : w.heap.size < 2147483647)
    (hop2 : fetch m2.code.code g.counter = .ok i_arraylength.byte)
    (hg1 : 1 ≤ g.top) (hg2 : g.stack[g.top - 1]? = some (w.heap.size : Int)) :
    ∃ heap1 : heap_t,
      step junk call cls method f w
        = .ok (.next { f with
                  stack := f.stack.set (f.top - 1) (w.heap.size : Int)
                  counter := (f.counter + 2) % 4294967296 }
                { w with heap := heap1 }) ∧
      heap1.size = w.heap.size + 1 ∧
      step junk call cls m2 g { w with heap := heap1 }
        = .ok (.next { g with
                  stack := g.stack.set (g.top - 1) n
                  counter := (g.counter + 1) % 4294967296 }
                { w with heap := heap1 }) ∧
      ∀ (i : Int) (m3 : method_t) (g3 : Frame), 0 ≤ i → i < n →
        fetch m3.code.code g3.counter = .ok i_iaload.byte → 2 ≤ g3.top →
        g3.stack[g3.top - 1]? = some i → g3.stack[g3.top - 2]? = some (w.heap.size : Int) →
        step junk call cls m3 g3 { w with heap := heap1 }
          = .ok (.next { g3 with
                    stack := g3.stack.set (g3.top - 2) 0
                    top := g3.top - 1
                    counter := (g3.counter + 1) % 4294967296 }
                  { w with heap := heap1 }) := by
  obtain ⟨heap1, hadd, hstep⟩ :=
    step_newarray junk call cls method f w n hop htop h1 hn0 hn1 hw (by omega)
  obtain ⟨heap2, hadd2, hwf2, hsz2, -, hnew, -⟩ :=
    heap_add_wf w.heap (n :: List.replicate n.toNat 0) hw (by omega)
  rw [hadd] at hadd2
  cases hadd2
  have hget : heap_get heap1 (w.heap.size : Int) = .ok (n :: List.replicate n.toNat 0) :=
    heap_get_ok heap1 w.heap.size _ (by omega) (by omega) hnew
  refine ⟨heap1, hstep, hsz2, ?_, ?_⟩
  · exact step_arraylength junk call cls m2 g _ _ n _ hop2 hg1 hg2 hget (by simp)
  · intro i m3 g3 hi0 hi1 hop3 hg3 hi hh
    refine step_iaload junk call cls m3 g3 _ _ i 0 _ _ hop3 hg3 hi hh hget
      (cell_ok i hi0 (by omega)) ?_
    rw [List.getElem?_cons_succ, List.getElem?_replicate]
    rw [if_pos (by omega)]

/-- C11 amended on the empty heap, at the length 0 (the handle is 0 and
`arraylength` gives 0) and at the length 3 (`arraylength` gives 3 and element 1
reads 0). -/
theorem newarray_then_read_witness :
    (∃ heap1 : heap_t,
      step junk7 call49 get_class (single i_newarray)
          { stack := [0, 7], top := 1, counter := 0, locals := [] } World.start
        = .ok (.next { stack := [0, 7], top := 1, counter := 2, locals := [] }
            { heap := heap1, out := [] }) ∧
      heap1.size = 0 + 1 ∧
      step junk7 call49 get_class (single i_arraylength)
          { stack := [0, 7], top := 1, counter := 0, locals := [] } { heap := heap1, out := [] }
        = .ok (.next { stack := [0, 7], top := 1, counter := 1, locals := [] }
            { heap := heap1, out := [] })) ∧
    ∃ heap1 : heap_t,
      step junk7 call49 get_class (single i_newarray)
          { stack := [3, 0], top := 1, counter := 0, locals := [] } World.start
        = .ok (.next { stack := [0, 0], top := 1, counter := 2, locals := [] }
            { heap := heap1, out := [] }) ∧
      heap1.size = 0 + 1 ∧
      step junk7 call49 get_class (single i_arraylength)
          { stack := [0, 0], top := 1, counter := 0, locals := [] } { heap := heap1, out := [] }
        = .ok (.next { stack := [3, 0], top := 1, counter := 1, locals := [] }
            { heap := heap1, out := [] }) ∧
      step junk7 call49 get_class (single i_iaload)
          { stack := [0, 1], top := 2, counter := 0, locals := [] } { heap := heap1, out := [] }
        = .ok (.next { stack := [0, 1], top := 1, counter := 1, locals := [] }
            { heap := heap1, out := [] }) :=
  ⟨(newarray_then_read junk7 call49 get_class (single i_newarray) (single i_arraylength)
      { stack := [0, 7], top := 1, counter := 0, locals := [] }
      { stack := [0, 7], top := 1, counter := 0, locals := [] } World.start 0
      (by decide) (by decide) (by decide) (by decide) (by decide) heap_init_wf (by decide)
      (by decide) (by decide) (by decide)).imp fun _ h => ⟨h.1, h.2.1, h.2.2.1⟩,
   (newarray_then_read junk7 call49 get_class (single i_newarray) (single i_arraylength)
      { stack := [3, 0], top := 1, counter := 0, locals := [] }
      { stack := [0, 0], top := 1, counter := 0, locals := [] } World.start 3
      (by decide) (by decide) (by decide) (by decide) (by decide) heap_init_wf (by decide)
      (by decide) (by decide) (by decide)).imp fun _ h =>
        ⟨h.1, h.2.1, h.2.2.1,
         h.2.2.2 1 (single i_iaload) { stack := [0, 1], top := 2, counter := 0, locals := [] }
           (by decide) (by decide) (by decide) (by decide) (by decide) (by decide)⟩⟩

/-! ## C12 -/

theorem quiet_ok {α : Type} (a : α) : (Exec.ok a).quiet := Or.inl ⟨a, rfl⟩

theorem quiet_undefined {α : Type} : (Exec.undefined : Exec α).quiet := Or.inr rfl

theorem quiet_bind {α β : Type} {x : Exec α} {f : α → Exec β}
    (hx : x.quiet) (hf : ∀ a, (f a).quiet) : (x >>= f).quiet := by
  rcases hx with ⟨a, rfl⟩ | rfl
  · exact hf a
  · exact Or.inr rfl

theorem quiet_ite {α : Type} {c : Prop} [Decidable c] {x y : Exec α}
    (hx : x.quiet) (hy : y.quiet) : (if c then x else y).quiet := by
  split
  · exact hx
  · exact hy

theorem quiet_not_exit {α : Type} {x : Exec α} (h : x.quiet) (c : Int) : x ≠ .exit c := by
  rcases h with ⟨a, rfl⟩ | rfl <;> intro hc <;> cases hc

theorem quiet_not_abort {α : Type} {x : Exec α} (h : x.quiet) : x ≠ .abort := by
  rcases h with ⟨a, rfl⟩ | rfl <;> intro hc <;> cases hc

theorem wr_quiet (xs : List Int) (i : Nat) (v : Int) : (wr xs i v).quiet := by
  unfold wr
  exact quiet_ite (quiet_ok _) quiet_undefined

theorem push_quiet (f : Frame) (v : Int) : (push f v).quiet := by
  unfold push
  exact quiet_bind (wr_quiet _ _ _) fun _ => quiet_ok _

theorem new_array_quiet (n : Int) : (new_array n).quiet := by
  unfold new_array
  exact quiet_ite quiet_undefined (wr_quiet _ _ _)

theorem heap_add_quiet (h : heap_t) (p : List Int) : (heap_add h p).quiet := by
  unfold heap_add
  exact quiet_ite (quiet_ok _) quiet_undefined

/-- C13 as stated fails at the length `n = 2^31 - 1 >= 0`: the handler passes
the guard `count < 0`, asks `calloc` for `count + 1` cells, which is not a
request it can serve, and stores `arr[0] = count` without a buffer: the run of
`ldc 2147483647; newarray; return` ends there without a result, where the same
program with the length 5 returns with one array in the heap. -/
theorem newarray_max_fails_counterexample :
    (0 : Int) ≤ 2147483647 ∧ isI32 2147483647 ∧
    new_array 2147483647 = .undefined ∧
    execute junk7 10 array_of_constant [] max_int_class World.start = .undefined ∧
    execute junk7 10 array_of_constant [] five_class World.start
      = .ok ({ has_value := false, value := 0 }, [],
          { heap := { data := [[5, 0, 0, 0, 0, 0], [], [], []], size := 1, capacity := 4 },
            out := [] }) := by
  decide

/-- C13, amended: on a stack with `top >= 1` whose top value `n` is negative,
`newarray` ends the step, and with it `execute`, in `exit(99)`, whatever the
heap holds, a full table included: the exit comes before the allocation and
before `heap_add`, and no state with a grown heap follows. The step is
`exit(99)` only for `n < 0`. For every `n` with `0 <= n < 2^31 - 1`, on a heap
table holding fewer than `2^31` arrays, `newarray` completes: it replaces `n` by
the handle, advances the counter by 2 and adds exactly one entry, the new
array, to the heap. -/
theorem newarray_negative_exits (junk : Nat → Int)
    (call : method_t → List Int → World → Exec (optional_value_t × World))
    (cls : class_file_t) (method : method_t) (f : Frame) (w : World) (n : Int) (fuel : Nat)
    (hop : fetch method.code.code f.counter = .ok i_newarray.byte)
    (htop : 1 ≤ f.top) (h1 : f.stack[f.top - 1]? = some n) :
    (n < 0 → ∀ w1 : World,
      step junk call cls method f w1 = .exit 99 ∧
      (∀ s : Step, step junk call cls method f w1 ≠ .ok s) ∧
      run junk cls (fuel + 1) method f w1 = .exit 99) ∧
    (step junk call cls method f w = .exit 99 ↔ n < 0) ∧
    (0 ≤ n → n < 2147483647 → w.heap.wf → w.heap.size < 2147483648 →
      ∃ heap1 : heap_t,
        step junk call cls method f w
          = .ok (.next { f with
                    stack := f.stack.set (f.top - 1) (w.heap.size : Int)
                    counter := (f.counter + 2) % 4294967296 }
                  { w with heap := heap1 }) ∧
        heap1.size = w.heap.size + 1 ∧
        heap1.data[w.heap.size]? = some (n :: List.replicate n.toNat 0) ∧
        (∀ r, r < w.heap.size → heap1.data[r]? = w.heap.data[r]?)) := by
  have hp := pop_ok f n (by omega) h1
  have hstep : ∀ call w, step junk call cls method f w
      = if n < 0 then .exit 99
        else (do
          let arr ← new_array n
          let (heap, ref) ← heap_add w.heap arr
          let f ← push { f with top := f.top - 1 } ref
          pure (.next (advance f 2) { w with heap := heap })) := by
    intro call w
    unfold step
    simp only [hop, Exec.ok_bind, decode_byte, show ¬ f.top < 1 by omega, if_false, hp, ERROR]
  refine ⟨?_, ?_, ?_⟩
  · intro hn w1
    refine ⟨by rw [hstep, if_pos hn], ?_, ?_⟩
    · intro s hs
      rw [hstep, if_pos hn] at hs
      cases hs
    · unfold run
      rw [hstep, if_pos hn]
  · by_cases hn : n < 0
    · simp only [hstep, hn, if_true]
    · have hq : (step junk call cls method f w).quiet := by
        rw [hstep, if_neg hn]
        refine quiet_bind (new_array_quiet n) fun arr => quiet_bind (heap_add_quiet _ _) ?_
        rintro ⟨heap, ref⟩
        exact quiet_bind (push_quiet _ _) fun _ => quiet_ok _
      simp only [hn, iff_false]
      exact quiet_not_exit hq 99
  · intro hn0 hn1 hw hs
    obtain ⟨heap1, hadd, hstep1⟩ :=
      step_newarray junk call cls method f w n hop htop h1 hn0 hn1 hw hs
    obtain ⟨heap2, hadd2, -, hsz2, -, hnew, hold⟩ :=
      heap_add_wf w.heap (n :: List.replicate n.toNat 0) hw hs
    rw [hadd] at hadd2
    cases hadd2
    exact ⟨heap1, hstep1, hsz2, hnew, hold⟩

/-- C13 amended on the empty heap: at the length `-1` the step is `exit(99)`;
at the length 2 it completes with the handle 0 and one entry in the heap. -/
theorem newarray_negative_exits_witness :
    (-1 : Int) < 0 ∧
    step junk7 call49 get_class (single i_newarray)
        { stack := [-1, 0], top := 1, counter := 0, locals := [] } World.start
      = .exit 99 ∧
    ∃ heap1 : heap_t,
      step junk7 call49 get_class (single i_newarray)
          { stack := [2, 0], top := 1, counter := 0, locals := [] } World.start
        = .ok (.next { stack := [0, 0], top := 1, counter := 2, locals := [] }
            { heap := heap1, out := [] }) ∧
      heap1.size = 0 + 1 :=
  ⟨by decide,
   ((newarray_negative_exits junk7 call49 get_class (single i_newarray)
      { stack := [-1, 0], top := 1, counter := 0, locals := [] } World.start (-1) 0
      (by decide) (by decide) (by decide)).1 (by decide) World.start).1,
   ((newarray_negative_exits junk7 call49 get_class (single i_newarray)
      { stack := [2, 0], top := 1, counter := 0, locals := [] } World.start 2 0
      (by decide) (by decide) (by decide)).2.2 (by decide) (by decide) heap_init_wf
      (by decide)).imp fun _ h => ⟨h.1, h.2.1⟩⟩

/-! ## C14 -/

theorem heap_add_all_cons (h : heap_t) (p : List Int) (ps : List (List Int)) :
    heap_add_all h (p :: ps)
      = (heap_add h p >>= fun r =>
          heap_add_all r.1 ps >>= fun r2 => Exec.ok (r2.1, r.2 :: r2.2)) := by
  rw [heap_add_all]
  cases heap_add h p with
  | ok r =>
    simp only [Exec.ok_bind]
    cases heap_add_all r.1 ps <;> rfl
  | _ => rfl

theorem heap_add_all_wf : ∀ (ps : List (List Int)) (h : heap_t),
    h.wf → h.size + ps.length ≤ 2147483648 →
    ∃ h1 : heap_t,
      heap_add_all h ps = .ok (h1, (List.range' h.size ps.length).map Int.ofNat) ∧
      h1.wf ∧ h1.size = h.size + ps.length := by
  intro ps
  induction ps with
  | nil => intro h hw _; exact ⟨h, rfl, hw, rfl⟩
  | cons p ps ih =>
    intro h hw hlen
    simp only [List.length_cons] at hlen
    obtain ⟨h1, hadd, hw1, hs1, -⟩ := heap_add_wf h p hw (by omega)
    obtain ⟨h2, hall, hw2, hs2⟩ := ih h1 hw1 (by omega)
    refine ⟨h2, ?_, hw2, by simp only [List.length_cons]; omega⟩
    rw [heap_add_all_cons, hadd]
    simp only [Exec.ok_bind, hall, hs1, List.length_cons, List.range'_succ, List.map_cons]
    rfl

theorem heap_add_all_append (ps qs : List (List Int)) : ∀ h : heap_t,
    heap_add_all h (ps ++ qs)
      = (heap_add_all h ps >>= fun r1 =>
          heap_add_all r1.1 qs >>= fun r2 => Exec.ok (r2.1, r1.2 ++ r2.2)) := by
  induction ps with
  | nil =>
    intro h
    rw [List.nil_append]
    show _ = (Exec.ok (h, []) >>= _)
    simp only [Exec.ok_bind, List.nil_append]
    cases heap_add_all h qs <;> rfl
  | cons p ps ih =>
    intro h
    rw [List.cons_append, heap_add_all_cons, heap_add_all_cons]
    cases hadd : heap_add h p with
    | ok r =>
      simp only [Exec.ok_bind, ih r.1]
      cases heap_add_all r.1 ps with
      | ok r1 =>
        simp only [Exec.ok_bind]
        cases heap_add_all r1.1 qs <;> simp only [Exec.ok_bind, List.cons_append] <;> rfl
      | _ => rfl
    | _ => rfl

theorem heap_add_full (h : heap_t) (p : List Int) (hw : h.wf) (hs : h.size = 2147483648) :
    heap_add h p = .undefined := by
  obtain ⟨hlen, hle, hcap⟩ := hw
  have hc : h.capacity = 2147483648 := by
    rcases hcap with h0 | hd
    · omega
    · have := Nat.le_of_dvd (by norm_num) hd
      omega
  unfold heap_add
  simp [hs, hc, realloc_table]


/-- C14 as stated fails for a sequence of `2^31 + 1` calls: the first `2^31`
fill a table of capacity `2^31`, and the next call doubles the `uint32_t`
capacity to 0, so that `heap->data[heap->size] = ptr` has no cell to write and
no handle is returned. -/
theorem handles_exhausted_counterexample :
    heap_add_all heap_init (List.replicate 2147483649 []) = .undefined := by
  have hrep : List.replicate (2147483648 + 1) ([] : List Int)
      = List.replicate 2147483648 [] ++ [[]] := List.replicate_succ' 2147483648 []
  have hlen : heap_init.size + (List.replicate 2147483648 ([] : List Int)).length
      ≤ 2147483648 := by
    rw [List.length_replicate]
    simp only [heap_init]
    omega
  obtain ⟨h1, hall, hw1, hs1⟩ :=
    heap_add_all_wf (List.replicate 2147483648 []) heap_init heap_init_wf hlen
  rw [List.length_replicate] at hs1
  simp only [heap_init] at hs1
  show heap_add_all heap_init (List.replicate (2147483648 + 1) []) = .undefined
  rw [hrep, heap_add_all_append, hall]
  simp only [Exec.ok_bind]
  rw [heap_add_all_cons, heap_add_full h1 [] hw1 (by omega)]
  rfl

/-- C14, amended: starting from `heap_init()`, for every sequence of at most
`2^31` `heap_add` calls the `k`-th call returns handle `k - 1`: the handles are
`0, 1, 2, ...` in call order, hence non-negative, dense, strictly increasing and
never repeated; the heap's size is the number of calls. -/
theorem handles_dense (ps : List (List Int)) (hlen : ps.length ≤ 2147483648) :
    ∃ h1 : heap_t,
      heap_add_all heap_init ps = .ok (h1, (List.range ps.length).map Int.ofNat) ∧
      h1.size = ps.length ∧
      (∀ k, k < ps.length → ((List.range ps.length).map Int.ofNat)[k]? = some (k : Int)) ∧
      ((List.range ps.length).map Int.ofNat).Nodup := by
  obtain ⟨h1, hall, -, hs1⟩ := heap_add_all_wf ps heap_init heap_init_wf
    (by simpa [heap_init] using hlen)
  refine ⟨h1, ?_, by simpa [heap_init] using hs1, ?_, ?_⟩
  · rw [hall, List.range_eq_range']
    rfl
  · intro k hk
    rw [List.getElem?_map, List.getElem?_range hk]
    rfl
  · exact (List.nodup_range _).map (fun a b h => Int.ofNat.inj h)

/-- C14 amended at five calls, the fifth of which grows the capacity. -/
theorem handles_dense_witness :
    ∃ h1 : heap_t,
      heap_add_all heap_init [[1], [2], [3], [4], [5]] = .ok (h1, [0, 1, 2, 3, 4]) ∧
      h1.size = 5 ∧
      (∀ k : Nat, k < 5 → ([0, 1, 2, 3, 4] : List Int)[k]? = some (k : Int)) ∧
      ([0, 1, 2, 3, 4] : List Int).Nodup :=
  handles_dense [[1], [2], [3], [4], [5]] (by decide)

/-! ## C15 -/

theorem toI32_two_pow_31 : toI32 2147483648 = -2147483648 := by decide

theorem heap_get_int_ok (h : heap_t) (ref : Int) (p : List Int)
    (h0 : 0 ≤ ref) (hlt : ref < (h.size : Int)) (hs : h.size < 2147483648)
    (hp : h.data[ref.toNat]? = some p) : heap_get h ref = .ok p := by
  unfold heap_get
  rw [toI32_of_lt _ hs, if_pos ⟨h0, hlt⟩]
  simp [hp]

theorem getElem?_some_of_lt (xs : List (List Int)) (i : Nat) (h : i < xs.length) :
    ∃ q, xs[i]? = some q :=
  ⟨_, List.getElem?_eq_getElem h⟩

/-- C15 as stated fails on the heap reached after `2^31 - 1` calls of
`heap_add`: one more call succeeds and brings `size` to `2^31`, which
`heap_get` reads as the `int32_t` value `-2^31`, so its assertion rejects the
handle just returned and every older handle. -/
theorem heap_get_after_last_add_counterexample :
    ∃ (h : heap_t) (handles : List Int) (h1 : heap_t) (r : Int),
      heap_add_all heap_init (List.replicate 2147483647 []) = .ok (h, handles) ∧
      heap_add h [7] = .ok (h1, r) ∧ heap_get h1 r = .abort ∧ heap_get h1 0 = .abort := by
  have hlen : heap_init.size + (List.replicate 2147483647 ([] : List Int)).length
      ≤ 2147483648 := by
    rw [List.length_replicate]
    simp only [heap_init]
    omega
  obtain ⟨h, hall, hw, hs⟩ :=
    heap_add_all_wf (List.replicate 2147483647 []) heap_init heap_init_wf hlen
  rw [List.length_replicate] at hs
  simp only [heap_init] at hs
  obtain ⟨h1, hadd, -, hs1, -⟩ := heap_add_wf h [7] hw (by omega)
  have e1 : h1.size = 2147483648 := by omega
  refine ⟨h, _, h1, _, hall, hadd, ?_, ?_⟩ <;>
    · unfold heap_get
      rw [e1, toI32_two_pow_31, if_neg (by omega)]

/-- C15, amended: for every well-formed heap holding fewer than `2^31 - 1`
buffers and every buffer `p`, `heap_add` returns a handle `r` (the old size)
with `heap_get(heap, r) = p`, and every handle `0 <= r0 < old size` yields the
same buffer after the call as before, also when the call grows the capacity. -/
theorem heap_get_after_add (h : heap_t) (p : List Int) (hw : h.wf) (hs : h.size < 2147483647) :
    ∃ (h1 : heap_t) (r : Int),
      heap_add h p = .ok (h1, r) ∧ r = (h.size : Int) ∧ heap_get h1 r = .ok p ∧
      ∀ r0 : Int, 0 ≤ r0 → r0 < (h.size : Int) →
        heap_get h1 r0 = heap_get h r0 ∧ ∃ q, heap_get h r0 = .ok q := by
  obtain ⟨h1, hadd, hw1, hs1, -, hnew, hold⟩ := heap_add_wf h p hw (by omega)
  refine ⟨h1, _, hadd, rfl, heap_get_ok h1 h.size p (by omega) (by omega) hnew, ?_⟩
  intro r0 h0 hlt
  obtain ⟨hlen, hle, -⟩ := hw
  have hr : r0.toNat < h.size := by omega
  obtain ⟨q, hq⟩ := getElem?_some_of_lt h.data r0.toNat (by omega)
  have g0 : heap_get h r0 = .ok q := heap_get_int_ok h r0 q h0 hlt (by omega) hq
  have g1 : heap_get h1 r0 = .ok q :=
    heap_get_int_ok h1 r0 q h0 (by omega) (by omega) (by rw [hold _ hr]; exact hq)
  exact ⟨by rw [g0, g1], q, g0⟩

/-- C15 amended at a full table of capacity 4, where the call grows the
capacity to 8. -/
theorem heap_get_after_add_witness :
    ∃ (h1 : heap_t) (r : Int),
      heap_add four_arrays [5] = .ok (h1, r) ∧ r = ((4 : Nat) : Int) ∧
      heap_get h1 r = .ok [5] ∧
      ∀ r0 : Int, 0 ≤ r0 → r0 < ((4 : Nat) : Int) →
        heap_get h1 r0 = heap_get four_arrays r0 ∧ ∃ q, heap_get four_arrays r0 = .ok q :=
  heap_get_after_add four_arrays [5] (by unfold heap_t.wf; decide) (by decide)

/-! ## C16 -/

/-- C16 as stated fails on the heap reached after `2^31` calls of `heap_add`:
handle 0 satisfies `0 <= ref < size`, yet `heap_get` compares it with
`(int32_t) size = -2^31` and its assertion fails. -/
theorem heap_get_full_counterexample :
    ∃ (h : heap_t) (handles : List Int),
      heap_add_all heap_init (List.replicate 2147483648 []) = .ok (h, handles) ∧
      (0 : Int) ≤ 0 ∧ (0 : Int) < (h.size : Int) ∧ heap_get h 0 = .abort := by
  have hlen : heap_init.size + (List.replicate 2147483648 ([] : List Int)).length
      ≤ 2147483648 := by
    rw [List.length_replicate]
    simp only [heap_init]
    omega
  obtain ⟨h1, hall, hw1, hs1⟩ :=
    heap_add_all_wf (List.replicate 2147483648 []) heap_init heap_init_wf hlen
  rw [List.length_replicate] at hs1
  simp only [heap_init] at hs1
  refine ⟨h1, _, hall, Int.le_refl 0, by omega, ?_⟩
  unfold heap_get
  rw [show h1.size = 2147483648 by omega, toI32_two_pow_31, if_neg (by omega)]

/-- C16, amended: for every heap holding fewer than `2^31` buffers and every
handle `ref`, the assertion of `heap_get` fails exactly when `ref < 0` or
`ref >= heap.size`, and otherwise `heap_get` returns the buffer stored at slot
`ref`. -/
theorem heap_get_bounds (h : heap_t) (ref : Int)
    (hs : h.size < 2147483648) (hlen : h.size ≤ h.data.length) :
    (heap_get h ref = .abort ↔ ref < 0 ∨ (h.size : Int) ≤ ref) ∧
    (0 ≤ ref ∧ ref < (h.size : Int) →
      ∃ p, h.data[ref.toNat]? = some p ∧ heap_get h ref = .ok p) := by
  have hI := toI32_of_lt _ hs
  constructor
  · by_cases hc : 0 ≤ ref ∧ ref < (h.size : Int)
    · obtain ⟨q, hq⟩ := getElem?_some_of_lt h.data ref.toNat (by omega)
      rw [heap_get_int_ok h ref q hc.1 hc.2 hs hq]
      simp only [reduceCtorEq, false_iff, not_or, not_lt, not_le]
      exact hc
    · unfold heap_get
      rw [hI, if_neg hc]
      simp only [true_iff]
      omega
  · intro hc
    obtain ⟨q, hq⟩ := getElem?_some_of_lt h.data ref.toNat (by omega)
    exact ⟨q, hq, heap_get_int_ok h ref q hc.1 hc.2 hs hq⟩

/-- C16 amended at handle 2 of a table of four buffers. -/
theorem heap_get_bounds_witness :
    (heap_get four_arrays 2 = .abort ↔ (2 : Int) < 0 ∨ ((4 : Nat) : Int) ≤ 2) ∧
    ((0 : Int) ≤ 2 ∧ (2 : Int) < ((4 : Nat) : Int) →
      ∃ p, four_arrays.data[(2 : Int).toNat]? = some p ∧ heap_get four_arrays 2 = .ok p) :=
  heap_get_bounds four_arrays 2 (by decide) (by decide)

/-! ## C17 -/

/-- C17 as stated fails: `get_number_of_parameters` never looks at the
descriptor. For `main` with descriptor `([Ljava/lang/String;)V` the token count
is 1 and for a method with descriptor `(II)I` it is 2, and the function returns
0 for both. -/
theorem param_count_counterexample :
    find_method "main" "([Ljava/lang/String;)V" get_class = some main_method ∧
    spec_param_count main_method.descriptor = 1 ∧ get_number_of_parameters main_method ≠ 1 ∧
    spec_param_count two_ints.descriptor = 2 ∧ get_number_of_parameters two_ints ≠ 2 := by
  decide

/-- C17, amended: for every method `m`, `get_number_of_parameters(m)` is 0
whatever the descriptor; it agrees with the number of top-level type tokens
between `(` and `)` exactly for the descriptors that have none. -/
theorem param_count_is_zero (m : method_t) :
    get_number_of_parameters m = 0 ∧
    (get_number_of_parameters m = spec_param_count m.descriptor
      ↔ spec_param_count m.descriptor = 0) := by
  refine ⟨rfl, ?_⟩
  unfold get_number_of_parameters
  exact eq_comm


/-! ## C18 -/

theorem malloc_block_getElem? (junk : Nat → Int) (n j : Nat) (hj : j < n) :
    (malloc_block junk n)[j]? = some (wrap32 (junk j)) := by
  unfold malloc_block
  rw [List.getElem?_map, List.getElem?_range hj]
  rfl

/-- C18 as stated fails: the callee's locals come from `malloc` and are not
cleared. A callee without parameters and with one local that returns local 0
makes the caller print what the allocator left in that cell: 7 with an
allocator that hands out cells holding 7, and 0 only when the allocator happens
to hand out zeroes. -/
theorem locals_not_zeroed_counterexample :
    get_number_of_parameters reader = 0 ∧ 0 < reader.code.max_locals ∧
    execute junk7 10 reader_caller [] reader_class World.start
      = .ok ({ has_value := false, value := 0 }, [], { heap := heap_init, out := [7] }) ∧
    execute (fun _ => 0) 10 reader_caller [] reader_class World.start
      = .ok ({ has_value := false, value := 0 }, [], { heap := heap_init, out := [0] }) := by
  decide

/-- C18, amended: `invokestatic` runs the callee `M` on a fresh `malloc` block of
`M.max_locals` cells; the argument loop writes slots `0..k-1` only, so every
slot `j` with `k <= j < M.max_locals` holds what the allocator left there when
the callee starts, which need not be 0. -/
theorem callee_locals_from_malloc (junk : Nat → Int)
    (call : method_t → List Int → World → Exec (optional_value_t × World))
    (cls : class_file_t) (method : method_t) (f : Frame) (w : World)
    (b1 b2 : Nat) (pool : method_t) (j k : Nat)
    (hop : fetch method.code.code f.counter = .ok i_invokestatic.byte)
    (hb1 : fetch method.code.code (f.counter + 1) = .ok b1)
    (hb2 : fetch method.code.code (f.counter + 2) = .ok b2)
    (hm : find_method_from_index ((b1 <<< 8) % 65536 ||| b2) cls = .ok pool)
    (hk : k ≤ f.top) (hlen : f.top ≤ f.stack.length)
    (hkj : k ≤ j) (hj : j < pool.code.max_locals) :
    step junk call cls method f w
      = (call pool (malloc_block junk pool.code.max_locals) w >>= fun r =>
          (if r.1.has_value = true then push f r.1.value else pure f) >>= fun f1 =>
            Exec.ok (Step.next (advance f1 3) r.2)) ∧
    (malloc_block junk pool.code.max_locals)[j]? = some (wrap32 (junk j)) ∧
    ∃ locals1 : List Int,
      pop_arguments k (malloc_block junk pool.code.max_locals) f
        = .ok (locals1, { f with top := f.top - k }) ∧
      locals1[j]? = some (wrap32 (junk j)) := by
  have hlenm : (malloc_block junk pool.code.max_locals).length = pool.code.max_locals := by
    simp [malloc_block]
  refine ⟨?_, malloc_block_getElem? junk _ j hj, _,
    pop_arguments_ok k _ f hk hlen (by rw [hlenm]; omega), ?_⟩
  · unfold step
    simp only [hop, Exec.ok_bind, decode_byte, hb1, hb2, hm, get_number_of_parameters,
      pop_arguments]
    cases hc : call pool (malloc_block junk pool.code.max_locals) w with
    | ok r =>
      obtain ⟨rec, w1⟩ := r
      simp only [Exec.ok_bind]
      cases rec.has_value <;> rfl
    | _ => rfl
  · rw [List.getElem?_append_right (by simp; omega)]
    simp only [List.length_take, List.length_drop, List.getElem?_drop]
    rw [show k + (j - min k (f.stack.length - (f.top - k))) = j by omega]
    exact malloc_block_getElem? junk _ j hj

/-- C18 amended at a call of `reader` with the allocator that leaves 7 in every
cell. -/
theorem callee_locals_from_malloc_witness :
    step junk7 call49 reader_class reader_caller
        { stack := [7], top := 0, counter := 0, locals := [] } World.start
      = (call49 reader (malloc_block junk7 reader.code.max_locals) World.start >>= fun r =>
          (if r.1.has_value = true
            then push { stack := [7], top := 0, counter := 0, locals := [] } r.1.value
            else pure { stack := [7], top := 0, counter := 0, locals := [] }) >>= fun f1 =>
            Exec.ok (Step.next (advance f1 3) r.2)) ∧
    (malloc_block junk7 reader.code.max_locals)[0]? = some (wrap32 (junk7 0)) ∧
    ∃ locals1 : List Int,
      pop_arguments 0 (malloc_block junk7 reader.code.max_locals)
          { stack := [7], top := 0, counter := 0, locals := [] }
        = .ok (locals1, { stack := [7], top := 0 - 0, counter := 0, locals := [] }) ∧
      locals1[0]? = some (wrap32 (junk7 0)) :=
  callee_locals_from_malloc junk7 call49 reader_class reader_caller
    { stack := [7], top := 0, counter := 0, locals := [] } World.start 0 1 reader 0 0
    (by decide) (by decide) (by decide) (by decide) (by decide) (by decide) (by decide)
    (by decide)

/-! ## C19 -/

theorem countdown_iinc (junk : Nat → Int)
    (call : method_t → List Int → World → Exec (optional_value_t × World))
    (cls : class_file_t) (m : method_t) (w : World) (rest : List Int)
    (hcode : m.code.code = countdown_code) (s : List Int) (v : Int)
    (h1 : 1 ≤ v) (h2 : v ≤ 2147483647) :
    step junk call cls m { stack := s, top := 0, counter := 0, locals := v :: rest } w
      = .ok (.next { stack := s, top := 0, counter := 3, locals := (v - 1) :: rest } w) := by
  have f0 : fetch m.code.code 0 = .ok i_iinc.byte := by rw [hcode]; rfl
  have f1 : fetch m.code.code (0 + 1) = .ok 0 := by rw [hcode]; rfl
  have f2 : fetch m.code.code (0 + 2) = .ok 255 := by rw [hcode]; rfl
  have hw : wrap32 (v + toI8 255) = v - 1 := by
    rw [show toI8 255 = -1 by decide]
    exact wrap32_of_isI32 _ ⟨by omega, by omega⟩
  unfold step
  simp only [f0, f1, f2, Exec.ok_bind, decode_byte, rd, wr, List.getElem?_cons_zero,
    List.length_cons, Nat.zero_lt_succ, if_true, List.set_cons_zero, Exec.pure_eq, advance, hw]

theorem countdown_iload (junk : Nat → Int)
    (call : method_t → List Int → World → Exec (optional_value_t × World))
    (cls : class_file_t) (m : method_t) (w : World) (rest : List Int)
    (hcode : m.code.code = countdown_code) (s : List Int) (u : Int)
    (hs : 0 < s.length) :
    step junk call cls m { stack := s, top := 0, counter := 3, locals := u :: rest } w
      = .ok (.next { stack := s.set 0 u, top := 1, counter := 4, locals := u :: rest } w) := by
  have f3 : fetch m.code.code 3 = .ok i_iload_0.byte := by rw [hcode]; rfl
  unfold step
  simp only [f3, Exec.ok_bind, decode_byte, load_local, rd, show (i_iload_0.byte - i_iload_0.byte) % 256 = 0 by decide,
    List.getElem?_cons_zero, push, wr, hs, if_true, Exec.pure_eq, advance]

theorem countdown_ifgt (junk : Nat → Int)
    (call : method_t → List Int → World → Exec (optional_value_t × World))
    (cls : class_file_t) (m : method_t) (w : World) (rest : List Int)
    (hcode : m.code.code = countdown_code) (s : List Int) (u : Int)
    (hs : 0 < s.length) :
    step junk call cls m { stack := s.set 0 u, top := 1, counter := 4, locals := u :: rest } w
      = .ok (.next { stack := s.set 0 u, top := 0, counter := if 0 < u then 0 else 7,
                     locals := u :: rest } w) := by
  have f4 : fetch m.code.code 4 = .ok i_ifgt.byte := by rw [hcode]; rfl
  have f5 : fetch m.code.code (4 + 1) = .ok 255 := by rw [hcode]; rfl
  have f6 : fetch m.code.code (4 + 2) = .ok 252 := by rw [hcode]; rfl
  have hb := step_branch junk call cls m
    { stack := s.set 0 u, top := 1, counter := 4, locals := u :: rest } w i_ifgt 1 255 252
    f4 f5 f6 rfl (Nat.le_refl 1) (by simp; omega)
  rw [hb]
  have hget : (s.set 0 u).getD (1 - 1) 0 = u := by
    simp [List.getD, List.getElem?_set_self hs]
  simp only [branch_test, hget, decide_eq_true_eq, gt_iff_lt]
  by_cases hu : 0 < u
  · simp only [hu, if_true, take_branch]
    rfl
  · simp only [hu, if_false, advance]

theorem countdown_return (junk : Nat → Int)
    (call : method_t → List Int → World → Exec (optional_value_t × World))
    (cls : class_file_t) (m : method_t) (w : World)
    (hcode : m.code.code = countdown_code) (s l : List Int) :
    step junk call cls m { stack := s, top := 0, counter := 7, locals := l } w
      = .ok (.ret { has_value := false, value := 0 }
          { stack := s, top := 0, counter := 7, locals := l } w) := by
  have f7 : fetch m.code.code 7 = .ok i_return.byte := by rw [hcode]; rfl
  unfold step
  simp only [f7, Exec.ok_bind, decode_byte, Exec.pure_eq]


theorem countdown_round (junk : Nat → Int)
    (call : method_t → List Int → World → Exec (optional_value_t × World))
    (cls : class_file_t) (m : method_t) (w : World) (rest : List Int)
    (hcode : m.code.code = countdown_code) (s : List Int) (v : Int)
    (hs : 0 < s.length) (h1 : 1 ≤ v) (h2 : v ≤ 2147483647) :
    step junk call cls m (countdown_frame s v rest) w
      = .ok (.next { stack := s, top := 0, counter := 3, locals := (v - 1) :: rest } w) ∧
    step junk call cls m { stack := s, top := 0, counter := 3, locals := (v - 1) :: rest } w
      = .ok (.next { stack := s.set 0 (v - 1), top := 1, counter := 4,
                     locals := (v - 1) :: rest } w) ∧
    step junk call cls m
        { stack := s.set 0 (v - 1), top := 1, counter := 4, locals := (v - 1) :: rest } w
      = .ok (.next { stack := s.set 0 (v - 1), top := 0, counter := if 1 < v then 0 else 7,
                     locals := (v - 1) :: rest } w) := by
  refine ⟨countdown_iinc junk call cls m w rest hcode s v h1 h2,
    countdown_iload junk call cls m w rest hcode s (v - 1) hs, ?_⟩
  rw [countdown_ifgt junk call cls m w rest hcode s (v - 1) hs]
  by_cases hv : 1 < v
  · rw [if_pos (by omega), if_pos hv]
  · rw [if_neg (by omega), if_neg hv]

theorem run_next (junk : Nat → Int) (cls : class_file_t) (m : method_t) (f f1 : Frame)
    (w w1 : World) (fuel : Nat)
    (h : ∀ call, step junk call cls m f w = .ok (.next f1 w1)) :
    run junk cls (fuel + 1) m f w = run junk cls fuel m f1 w1 := by
  rw [run, h]

theorem run_ret (junk : Nat → Int) (cls : class_file_t) (m : method_t) (f f1 : Frame)
    (w w1 : World) (fuel : Nat) (r : optional_value_t)
    (h : ∀ call, step junk call cls m f w = .ok (.ret r f1 w1)) :
    run junk cls (fuel + 1) m f w = .ok (r, f1.locals, w1) := by
  rw [run, h]

theorem steps_next (junk : Nat → Int)
    (call : method_t → List Int → World → Exec (optional_value_t × World))
    (cls : class_file_t) (m : method_t) (f f1 : Frame) (w w1 : World) (n : Nat)
    (h : step junk call cls m f w = .ok (.next f1 w1)) :
    steps junk call cls m (n + 1) f w = steps junk call cls m n f1 w1 := by
  rw [steps, h]

theorem steps_add (junk : Nat → Int)
    (call : method_t → List Int → World → Exec (optional_value_t × World))
    (cls : class_file_t) (m : method_t) (a b : Nat) : ∀ (f f1 : Frame) (w w1 : World),
    steps junk call cls m a f w = .ok (.next f1 w1) →
    steps junk call cls m (a + b) f w = steps junk call cls m b f1 w1 := by
  induction a with
  | zero =>
    intro f f1 w w1 h
    rw [steps] at h
    cases h
    rw [Nat.zero_add]
  | succ a ih =>
    intro f f1 w w1 h
    rw [show a + 1 + b = (a + b) + 1 by omega]
    rw [steps] at h ⊢
    cases hs : step junk call cls m f w with
    | ok st =>
      cases st with
      | next f2 w2 =>
        rw [hs] at h
        exact ih f2 f1 w2 w1 h
      | ret r f2 w2 => rw [hs] at h; cases h
    | _ => rw [hs] at h; cases h


theorem countdown_three (junk : Nat → Int) (cls : class_file_t) (m : method_t) (w : World)
    (rest : List Int) (hcode : m.code.code = countdown_code) (s : List Int) (n fuel : Nat)
    (hs : 0 < s.length) (h2 : n + 1 ≤ 2147483647) :
    run junk cls (fuel + 3) m (countdown_frame s ((n + 1 : Nat) : Int) rest) w
      = run junk cls fuel m
          { stack := s.set 0 (n : Int), top := 0, counter := if 1 ≤ n then 0 else 7,
            locals := (n : Int) :: rest } w := by
  have hr := fun call => countdown_round junk call cls m w rest hcode s ((n + 1 : Nat) : Int) hs
    (by omega) (by omega)
  have e : ((n + 1 : Nat) : Int) - 1 = (n : Int) := by omega
  simp only [e] at hr
  rw [run_next junk cls m _ _ w w (fuel + 2) (fun call => (hr call).1),
    run_next junk cls m _ _ w w (fuel + 1) (fun call => (hr call).2.1),
    run_next junk cls m _ _ w w fuel (fun call => (hr call).2.2)]
  by_cases hn : 1 ≤ n
  · rw [if_pos (by omega), if_pos hn]
  · rw [if_neg (by omega), if_neg hn]

theorem run_countdown_ok (junk : Nat → Int) (cls : class_file_t) (m : method_t) (w : World)
    (rest : List Int) (hcode : m.code.code = countdown_code) (n : Nat) :
    ∀ (s : List Int) (extra : Nat), 0 < s.length → n + 1 ≤ 2147483647 →
    run junk cls (3 * (n + 1) + 1 + extra) m (countdown_frame s ((n + 1 : Nat) : Int) rest) w
      = .ok ({ has_value := false, value := 0 }, 0 :: rest, w) := by
  induction n with
  | zero =>
    intro s extra hs h2
    rw [show 3 * (0 + 1) + 1 + extra = (extra + 1) + 3 by omega,
      countdown_three junk cls m w rest hcode s 0 (extra + 1) hs h2, if_neg (by omega)]
    exact run_ret junk cls m _ _ w w extra _
      (fun call => countdown_return junk call cls m w hcode _ _)
  | succ n ih =>
    intro s extra hs h2
    rw [show 3 * (n + 1 + 1) + 1 + extra = (3 * (n + 1) + 1 + extra) + 3 by omega,
      countdown_three junk cls m w rest hcode s (n + 1) _ hs h2, if_pos (by omega)]
    exact ih (s.set 0 ((n + 1 : Nat) : Int)) extra (by simp; omega) (by omega)

theorem run_countdown_timeout (junk : Nat → Int) (cls : class_file_t) (m : method_t)
    (w : World) (rest : List Int) (hcode : m.code.code = countdown_code) (n : Nat) :
    ∀ (s : List Int) (fuel : Nat), 0 < s.length → n + 1 ≤ 2147483647 → fuel ≤ 3 * (n + 1) →
    run junk cls fuel m (countdown_frame s ((n + 1 : Nat) : Int) rest) w = .timeout := by
  induction n with
  | zero =>
    intro s fuel hs h2 hf
    have hr := fun call => countdown_round junk call cls m w rest hcode s ((0 + 1 : Nat) : Int)
      hs (by omega) (by omega)
    rcases fuel with _ | _ | _ | _ | fuel
    · rfl
    · rw [run_next junk cls m _ _ w w 0 (fun call => (hr call).1)]; rfl
    · rw [run_next junk cls m _ _ w w 1 (fun call => (hr call).1),
        run_next junk cls m _ _ w w 0 (fun call => (hr call).2.1)]; rfl
    · rw [run_next junk cls m _ _ w w 2 (fun call => (hr call).1),
        run_next junk cls m _ _ w w 1 (fun call => (hr call).2.1),
        run_next junk cls m _ _ w w 0 (fun call => (hr call).2.2)]; rfl
    · omega
  | succ n ih =>
    intro s fuel hs h2 hf
    have hr := fun call => countdown_round junk call cls m w rest hcode s
      ((n + 1 + 1 : Nat) : Int) hs (by omega) (by omega)
    rcases fuel with _ | _ | _ | fuel
    · rfl
    · rw [run_next junk cls m _ _ w w 0 (fun call => (hr call).1)]; rfl
    · rw [run_next junk cls m _ _ w w 1 (fun call => (hr call).1),
        run_next junk cls m _ _ w w 0 (fun call => (hr call).2.1)]; rfl
    · rw [countdown_three junk cls m w rest hcode s (n + 1) fuel hs h2, if_pos (by omega)]
      exact ih (s.set 0 ((n + 1 : Nat) : Int)) fuel (by simp; omega) (by omega) (by omega)

theorem steps_countdown (junk : Nat → Int)
    (call : method_t → List Int → World → Exec (optional_value_t × World))
    (cls : class_file_t) (m : method_t) (w : World) (rest : List Int)
    (hcode : m.code.code = countdown_code) (s : List Int) (n : Nat)
    (hs : 0 < s.length) (h2 : n ≤ 2147483647) (j : Nat) :
    j < n →
    ∃ s1 : List Int, 0 < s1.length ∧
      steps junk call cls m (3 * j) (countdown_frame s (n : Int) rest) w
        = .ok (.next (countdown_frame s1 ((n - j : Nat) : Int) rest) w) := by
  induction j with
  | zero => intro _; exact ⟨s, hs, rfl⟩
  | succ j ih =>
    intro hj
    obtain ⟨s1, hs1, hst⟩ := ih (by omega)
    have hr := countdown_round junk call cls m w rest hcode s1 ((n - j : Nat) : Int) hs1
      (by omega) (by omega)
    have e : ((n - j : Nat) : Int) - 1 = ((n - (j + 1) : Nat) : Int) := by omega
    rw [e, if_pos (by omega)] at hr
    refine ⟨s1.set 0 ((n - (j + 1) : Nat) : Int), by simp; omega, ?_⟩
    rw [show 3 * (j + 1) = 3 * j + 3 by omega, steps_add junk call cls m (3 * j) 3 _ _ w w hst,
      steps_next junk call cls m _ _ w w 2 hr.1, steps_next junk call cls m _ _ w w 1 hr.2.1,
      steps_next junk call cls m _ _ w w 0 hr.2.2]
    rfl

/-- C19: for every `n` with `1 <= n <= 2^31 - 1`, `execute` on the code
`iinc 0,-1; iload_0; ifgt -4; return` with `max_stack >= 1` and `locals[0] = n`
terminates, returns void and leaves `locals[0] = 0` (other locals, heap and
output unchanged). The run takes exactly `3 n + 1` instructions: with any fuel
up to `3 n` it is still running, and pass `3 j` of the loop, for each `j < n`,
is the `iinc` at counter 0 with `locals[0] = n - j`; so the `iinc` runs exactly
`n` times, the back edge `ifgt -4` being taken `n - 1` times. -/
theorem countdown_terminates (junk : Nat → Int)
    (call : method_t → List Int → World → Exec (optional_value_t × World))
    (cls : class_file_t) (m : method_t) (w : World) (rest : List Int) (n fuel short j : Nat)
    (hcode : m.code.code = countdown_code) (hstack : 1 ≤ m.code.max_stack)
    (h1 : 1 ≤ n) (h2 : n ≤ 2147483647)
    (hfuel : 3 * n + 1 ≤ fuel) (hshort : short ≤ 3 * n) (hj : j < n) :
    execute junk fuel m ((n : Int) :: rest) cls w
      = .ok ({ has_value := false, value := 0 }, 0 :: rest, w) ∧
    execute junk short m ((n : Int) :: rest) cls w = .timeout ∧
    ∃ s1 : List Int,
      steps junk call cls m (3 * j) (Frame.init junk m ((n : Int) :: rest)) w
        = .ok (.next { stack := s1, top := 0, counter := 0,
                       locals := ((n - j : Nat) : Int) :: rest } w) := by
  have hs : 0 < (malloc_block junk m.code.max_stack).length := by
    simp [malloc_block]; omega
  obtain ⟨k, rfl⟩ : ∃ k, n = k + 1 := ⟨n - 1, by omega⟩
  refine ⟨?_, ?_, ?_⟩
  · obtain ⟨extra, rfl⟩ : ∃ extra, fuel = 3 * (k + 1) + 1 + extra := ⟨fuel - (3 * (k + 1) + 1), by omega⟩
    exact run_countdown_ok junk cls m w rest hcode k _ extra hs h2
  · exact run_countdown_timeout junk cls m w rest hcode k _ short hs h2 hshort
  · obtain ⟨s1, -, hst⟩ := steps_countdown junk call cls m w rest hcode _ (k + 1) hs h2 j hj
    exact ⟨s1, hst⟩

/-- C19 at `n = 2`: seven instructions, the second `iinc` at pass 3. -/
theorem countdown_terminates_witness :
    execute junk7 7 countdown [2] get_class World.start
      = .ok ({ has_value := false, value := 0 }, [0], World.start) ∧
    execute junk7 6 countdown [2] get_class World.start = .timeout ∧
    ∃ s1 : List Int,
      steps junk7 call49 get_class countdown (3 * 1) (Frame.init junk7 countdown [2])
          World.start
        = .ok (.next { stack := s1, top := 0, counter := 0, locals := [1] } World.start) :=
  countdown_terminates junk7 call49 get_class countdown World.start [] 2 7 6 1
    rfl (by decide) (by decide) (by decide) (by decide) (by decide) (by decide)

/-! ## C20 -/

theorem main_steps (junk : Nat → Int)
    (call : method_t → List Int → World → Exec (optional_value_t × World)) :
    step junk call get_class main_method (Frame.init junk main_method [0]) World.start
      = .ok (.next { stack := (malloc_block junk 10).set 0 5, top := 1, counter := 1,
                     locals := [0] } World.start) ∧
    step junk call get_class main_method
        { stack := (malloc_block junk 10).set 0 5, top := 1, counter := 1, locals := [0] }
        World.start
      = .ok (.next { stack := ((malloc_block junk 10).set 0 5).set 1 4, top := 2, counter := 2,
                     locals := [0] } World.start) ∧
    step junk call get_class main_method
        { stack := ((malloc_block junk 10).set 0 5).set 1 4, top := 2, counter := 2,
          locals := [0] } World.start
      = .ok (.next { stack := ((malloc_block junk 10).set 0 9).set 1 4, top := 1, counter := 3,
                     locals := [0] } World.start) ∧
    step junk call get_class main_method
        { stack := ((malloc_block junk 10).set 0 9).set 1 4, top := 1, counter := 3,
          locals := [0] } World.start
      = .ok (.next { stack := ((malloc_block junk 10).set 0 9).set 1 4, top := 1, counter := 6,
                     locals := [0] } World.start) ∧
    step junk call get_class main_method
        { stack := ((malloc_block junk 10).set 0 9).set 1 4, top := 1, counter := 6,
          locals := [0] } World.start
      = .ok (.next (main_after_print junk) { heap := heap_init, out := [9] }) ∧
    step junk call get_class main_method (main_after_print junk)
        { heap := heap_init, out := [9] }
      = .undefined := by
  refine ⟨rfl, rfl, rfl, rfl, rfl, rfl⟩

/-- C20 on the code: `execute` on the `main` of `get_class` prints the single
integer 9, and then, `getstatic` at 3 and `invokevirtual` at 6 having advanced
the counter by 3 each, decodes at counter 9, one past the 9 code bytes; the
`return` at index 7 is never decoded and `execute` does not return. -/
theorem main_runs_past_code (junk : Nat → Int)
    (call : method_t → List Int → World → Exec (optional_value_t × World)) (fuel : Nat) :
    find_method "main" "([Ljava/lang/String;)V" get_class = some main_method ∧
    main_method.code.code.length = 9 ∧
    steps junk call get_class main_method 5 (Frame.init junk main_method [0]) World.start
      = .ok (.next (main_after_print junk) { heap := heap_init, out := [9] }) ∧
    (main_after_print junk).counter = 9 ∧
    fetch main_method.code.code 9 = .undefined ∧
    step junk call get_class main_method (main_after_print junk)
        { heap := heap_init, out := [9] }
      = .undefined ∧
    execute junk (fuel + 6) main_method [0] get_class World.start = .undefined := by
  have hs := main_steps junk
  refine ⟨by decide, rfl, ?_, rfl, rfl, (hs call).2.2.2.2.2, ?_⟩
  · rw [steps_next junk call get_class main_method _ _ _ _ 4 (hs call).1,
      steps_next junk call get_class main_method _ _ _ _ 3 (hs call).2.1,
      steps_next junk call get_class main_method _ _ _ _ 2 (hs call).2.2.1,
      steps_next junk call get_class main_method _ _ _ _ 1 (hs call).2.2.2.1,
      steps_next junk call get_class main_method _ _ _ _ 0 (hs call).2.2.2.2.1]
    rfl
  · unfold execute
    rw [run_next junk get_class main_method _ _ _ _ (fuel + 5) (fun c => (hs c).1),
      run_next junk get_class main_method _ _ _ _ (fuel + 4) (fun c => (hs c).2.1),
      run_next junk get_class main_method _ _ _ _ (fuel + 3) (fun c => (hs c).2.2.1),
      run_next junk get_class main_method _ _ _ _ (fuel + 2) (fun c => (hs c).2.2.2.1),
      run_next junk get_class main_method _ _ _ _ (fuel + 1) (fun c => (hs c).2.2.2.2.1)]
    rw [run, (hs _).2.2.2.2.2]

/-! ## C21 -/

theorem take_branch_three (g : Frame) : take_branch g 0 3 = advance g 3 := by
  unfold take_branch advance
  rw [show toU32 (branch_displacement 0 3) = 3 by decide]

/-- C21: for each conditional branch opcode (`ifeq .. ifle`, `if_icmpeq ..
if_icmple`) whose immediate bytes are `00 03` and every state with enough
operands, the step pops the `k` operands (1 or 2) and sets the counter to
counter + 3 (modulo `2^32`), whatever the operands are: the frame a taken
branch produces is the frame of falling through, and stack cells, locals, heap
and output are untouched. -/
theorem branch_three_falls_through (junk : Nat → Int)
    (call : method_t → List Int → World → Exec (optional_value_t × World))
    (cls : class_file_t) (method : method_t) (f : Frame) (w : World)
    (i : jvm_instruction_t) (k : Nat)
    (hi : i ∈ [i_ifeq, i_ifne, i_iflt, i_ifge, i_ifgt, i_ifle, i_if_icmpeq, i_if_icmpne,
               i_if_icmplt, i_if_icmpge, i_if_icmpgt, i_if_icmple])
    (hop : fetch method.code.code f.counter = .ok i.byte)
    (hb1 : fetch method.code.code (f.counter + 1) = .ok 0)
    (hb2 : fetch method.code.code (f.counter + 2) = .ok 3)
    (hk : branch_pops i = some k) (htop : k ≤ f.top) (hlen : f.top ≤ f.stack.length) :
    spec_offset 0 3 = 3 ∧ (k = 1 ∨ k = 2) ∧
    take_branch { f with top := f.top - k } 0 3 = advance { f with top := f.top - k } 3 ∧
    step junk call cls method f w
      = .ok (.next { f with top := f.top - k, counter := (f.counter + 3) % 4294967296 } w) := by
  refine ⟨by decide, ?_, take_branch_three _, ?_⟩
  · simp only [List.mem_cons, List.mem_singleton, List.mem_nil_iff, or_false] at hi
    rcases hi with rfl | rfl | rfl | rfl | rfl | rfl | rfl | rfl | rfl | rfl | rfl | rfl <;>
      simp only [branch_pops, Option.some.injEq] at hk <;> omega
  rw [step_branch junk call cls method f w i k 0 3 hop hb1 hb2 hk htop hlen, take_branch_three]
  split <;> rfl

/-- C21 at `ifeq +3` with the operand 0, where the predicate holds. -/
theorem branch_three_falls_through_witness :
    spec_offset 0 3 = 3 ∧ ((1 : Nat) = 1 ∨ (1 : Nat) = 2) ∧
    take_branch { stack := [0, 0], top := 1 - 1, counter := 0, locals := [] } 0 3
      = advance { stack := [0, 0], top := 1 - 1, counter := 0, locals := [] } 3 ∧
    step junk7 call49 get_class skip3
        { stack := [0, 0], top := 1, counter := 0, locals := [] } World.start
      = .ok (.next { stack := [0, 0], top := 1 - 1, counter := (0 + 3) % 4294967296,
                     locals := [] } World.start) :=
  branch_three_falls_through junk7 call49 get_class skip3
    { stack := [0, 0], top := 1, counter := 0, locals := [] } World.start i_ifeq 1
    (by decide) (by decide) (by decide) (by decide) (by decide) (by decide) (by decide)

/-! ## C22 -/

theorem heap_add_capacity (h h1 : heap_t) (p : List Int) (r : Int)
    (hadd : heap_add h p = .ok (h1, r)) :
    h1.capacity
      = (if h.size = h.capacity then
          (if h.capacity ≠ 0 then (h.capacity * 2) % 4294967296 else 4)
         else h.capacity) := by
  unfold heap_add at hadd
  by_cases hfull : h.size = h.capacity
  · rw [if_pos hfull]
    simp only [hfull, if_true] at hadd
    by_cases hlt : h.capacity
        < (realloc_table h.data
            (if h.capacity ≠ 0 then h.capacity * 2 % 4294967296 else 4)).length
    · rw [if_pos hlt] at hadd
      injection hadd with hadd
      injection hadd with ha hb
      rw [← ha]
    · rw [if_neg hlt] at hadd
      cases hadd
  · rw [if_neg hfull]
    simp only [hfull, if_false] at hadd
    by_cases hlt : h.size < h.data.length
    · rw [if_pos hlt] at hadd
      injection hadd with hadd
      injection hadd with ha hb
      rw [← ha]
    · rw [if_neg hlt] at hadd
      cases hadd

/-- What `heap_add` does to the capacity of a heap that `heap_init` and
`heap_add` produced and that holds fewer than `2^31` entries. -/
theorem heap_add_grows (h : heap_t) (p : List Int) (hw : h.wf)
    (hz : h.capacity = 0 ∨ 4 ≤ h.capacity) (hs : h.size < 2147483648) :
    ∃ h1 : heap_t,
      heap_add h p = .ok (h1, (h.size : Int)) ∧ h1.wf ∧ 4 ≤ h1.capacity ∧
      h1.size = h.size + 1 ∧
      h1.capacity
        = (if h.size = h.capacity then (if h.capacity = 0 then 4 else 2 * h.capacity)
           else h.capacity) ∧
      h.size < h1.capacity ∧ h1.data[h.size]? = some p := by
  obtain ⟨h1, hadd, hw1, hs1, hmono, hnew, -⟩ := heap_add_wf h p hw hs
  have hc := heap_add_capacity h h1 p _ hadd
  obtain ⟨hlen, hle, hcap⟩ := hw
  have hcap1 : h1.capacity
      = (if h.size = h.capacity then (if h.capacity = 0 then 4 else 2 * h.capacity)
         else h.capacity) := by
    rw [hc]
    by_cases hfull : h.size = h.capacity
    · by_cases h0 : h.capacity = 0
      · simp [hfull, h0]
      · have : h.capacity * 2 % 4294967296 = 2 * h.capacity := by omega
        simp [hfull, h0, this]
    · simp [hfull]
  have hlt : h.size < h1.capacity := by
    have := hw1.2.1
    omega
  refine ⟨h1, hadd, hw1, ?_, hs1, hcap1, hlt, hnew⟩
  rcases hz with h0 | h4
  · have hsz : h.size = 0 := by omega
    rw [hcap1]
    simp [hsz, h0]
  · omega

theorem heap_add_all_grows : ∀ (ps : List (List Int)) (h : heap_t),
    h.wf → ((h.capacity = 0 ∧ h.size = 0) ∨ (4 ≤ h.capacity ∧ 0 < h.size)) →
    h.size + ps.length ≤ 2147483648 →
    ∃ (h1 : heap_t) (handles : List Int),
      heap_add_all h ps = .ok (h1, handles) ∧ h1.wf ∧
      ((h1.capacity = 0 ∧ h1.size = 0) ∨ (4 ≤ h1.capacity ∧ 0 < h1.size)) ∧
      h1.size = h.size + ps.length := by
  intro ps
  induction ps with
  | nil => intro h hw hk _; exact ⟨h, [], rfl, hw, hk, rfl⟩
  | cons p ps ih =>
    intro h hw hk hlen
    simp only [List.length_cons] at hlen
    obtain ⟨h1, hadd, hw1, h4, hs1, -⟩ :=
      heap_add_grows h p hw (by rcases hk with hk | hk <;> omega) (by omega)
    obtain ⟨h2, handles, hall, hw2, hk2, hs2⟩ := ih h1 hw1 (Or.inr ⟨h4, by omega⟩) (by omega)
    refine ⟨h2, (h.size : Int) :: handles, ?_, hw2, hk2,
      by simp only [List.length_cons]; omega⟩
    rw [heap_add_all_cons, hadd]
    simp only [Exec.ok_bind, hall]

theorem four_times_pow (c : Nat) (hd : c ∣ 2147483648) (h4 : 4 ≤ c) :
    ∃ j, j ≤ 29 ∧ c = 4 * 2 ^ j := by
  have h31 : (2147483648 : Nat) = 2 ^ 31 := by norm_num
  rw [h31] at hd
  obtain ⟨k, hk, rfl⟩ := (Nat.dvd_prime_pow Nat.prime_two).1 hd
  have hk2 : 2 ≤ k := by
    by_contra hc
    have : k = 0 ∨ k = 1 := by omega
    rcases this with rfl | rfl <;> omega
  refine ⟨k - 2, by omega, ?_⟩
  have : k = 2 + (k - 2) := by omega
  rw [this, pow_add]
  norm_num

/-- C22 as stated fails on the heap reached after `2^31` calls of `heap_add`:
there `size == capacity == 2^31`, the `uint32_t` product `capacity * 2` is 0
and not the double, and the next `heap_add` has no cell below the capacity to
write `data[size]` to. -/
theorem capacity_wraps_counterexample :
    ∃ (h : heap_t) (handles : List Int),
      heap_add_all heap_init (List.replicate 2147483648 []) = .ok (h, handles) ∧
      h.size = h.capacity ∧ h.capacity = 2147483648 ∧
      (h.capacity * 2) % 4294967296 = 0 ∧ (h.capacity * 2) % 4294967296 ≠ 2 * h.capacity ∧
      heap_add h [7] = .undefined := by
  have hlen : heap_init.size + (List.replicate 2147483648 ([] : List Int)).length
      ≤ 2147483648 := by
    rw [List.length_replicate]
    simp only [heap_init]
    omega
  obtain ⟨h, hall, hw, hs⟩ :=
    heap_add_all_wf (List.replicate 2147483648 []) heap_init heap_init_wf hlen
  rw [List.length_replicate] at hs
  simp only [heap_init] at hs
  have hsz : h.size = 2147483648 := by omega
  have hc : h.capacity = 2147483648 := by
    obtain ⟨-, hle, hcap⟩ := hw
    rcases hcap with h0 | hd
    · omega
    · have := Nat.le_of_dvd (by norm_num) hd
      omega
  refine ⟨h, _, hall, by omega, hc, by omega, by omega, heap_add_full h [7] hw hsz⟩

/-- C22, amended: for every heap reached from `heap_init()` by fewer than `2^31`
calls of `heap_add`, `size <= capacity` holds, the table has `capacity`
entries, the capacity is 0 exactly before the first call and otherwise
`4 * 2^j`; one more `heap_add` turns the capacity 0 into 4, doubles it exactly
when it finds `size == capacity`, leaves it alone otherwise, and writes the
buffer at index `size`, strictly below the new capacity. -/
theorem capacity_doubles (ps : List (List Int)) (p : List Int)
    (hlen : ps.length < 2147483648) :
    ∃ (h : heap_t) (handles : List Int) (h1 : heap_t) (r : Int),
      heap_add_all heap_init ps = .ok (h, handles) ∧
      h.size = ps.length ∧ h.size ≤ h.capacity ∧ h.data.length = h.capacity ∧
      (h.capacity = 0 ↔ ps = []) ∧
      (h.capacity = 0 ∨ ∃ j, j ≤ 29 ∧ h.capacity = 4 * 2 ^ j) ∧
      heap_add h p = .ok (h1, r) ∧
      h1.capacity
        = (if h.size = h.capacity then (if h.capacity = 0 then 4 else 2 * h.capacity)
           else h.capacity) ∧
      h.size < h1.capacity ∧ h1.data[h.size]? = some p ∧ h1.size ≤ h1.capacity := by
  obtain ⟨h, handles, hall, hw, hk, hs⟩ :=
    heap_add_all_grows ps heap_init heap_init_wf (Or.inl ⟨rfl, rfl⟩)
      (by simp only [heap_init]; omega)
  simp only [heap_init, Nat.zero_add] at hs
  obtain ⟨h1, hadd, hw1, -, hs1, hcap1, hlt, hnew⟩ :=
    heap_add_grows h p hw (by rcases hk with hk | hk <;> omega) (by omega)
  refine ⟨h, handles, h1, _, hall, hs, hw.2.1, hw.1, ?_, ?_, hadd, hcap1, hlt, hnew, hw1.2.1⟩
  · rw [← List.length_eq_zero, ← hs]
    rcases hk with hk | hk <;> omega
  · rcases hk with hk | hk
    · exact Or.inl hk.1
    · rcases hw.2.2 with h0 | hd
      · omega
      · exact Or.inr (four_times_pow _ hd hk.1)

/-- C22 amended after four calls: the table is full with capacity 4 and the
fifth call doubles it to 8. -/
theorem capacity_doubles_witness :
    ∃ (h : heap_t) (handles : List Int) (h1 : heap_t) (r : Int),
      heap_add_all heap_init [[1], [2], [3], [4]] = .ok (h, handles) ∧
      h.size = [[1], [2], [3], [4]].length ∧ h.size ≤ h.capacity ∧
      h.data.length = h.capacity ∧
      (h.capacity = 0 ↔ [[1], [2], [3], [4]] = ([] : List (List Int))) ∧
      (h.capacity = 0 ∨ ∃ j, j ≤ 29 ∧ h.capacity = 4 * 2 ^ j) ∧
      heap_add h [5] = .ok (h1, r) ∧
      h1.capacity
        = (if h.size = h.capacity then (if h.capacity = 0 then 4 else 2 * h.capacity)
           else h.capacity) ∧
      h.size < h1.capacity ∧ h1.data[h.size]? = some [5] ∧ h1.size ≤ h1.capacity :=
  capacity_doubles [[1], [2], [3], [4]] [5] (by decide)

/-! ## C23 -/

/-- C23 as stated fails at the index `-1`: `iastore` writes `arr[index + 1]`,
which is cell 0, the length cell, inside the buffer. On a new array of length 2
the `arraylength` gives 2 before and 42 after `iastore(h, -1, 42)`, and the
program that does so prints 42. -/
theorem length_overwritten_counterexample :
    heap_add heap_init [2, 0, 0] = .ok (one_array, 0) ∧
    step junk7 call49 get_class (single i_arraylength)
        { stack := [0, 0], top := 1, counter := 0, locals := [] }
        { heap := one_array, out := [] }
      = .ok (.next { stack := [2, 0], top := 1, counter := 1, locals := [] }
          { heap := one_array, out := [] }) ∧
    cell (-1) = .ok 0 ∧ 0 < ([2, 0, 0] : List Int).length ∧
    step junk7 call49 get_class (single i_iastore)
        { stack := [0, -1, 42], top := 3, counter := 0, locals := [] }
        { heap := one_array, out := [] }
      = .ok (.next { stack := [0, -1, 42], top := 0, counter := 1, locals := [] }
          { heap := { one_array with data := [[42, 0, 0], [], [], []] }, out := [] }) ∧
    step junk7 call49 get_class (single i_arraylength)
        { stack := [0, 0], top := 1, counter := 0, locals := [] }
        { heap := { one_array with data := [[42, 0, 0], [], [], []] }, out := [] }
      = .ok (.next { stack := [42, 0], top := 1, counter := 1, locals := [] }
          { heap := { one_array with data := [[42, 0, 0], [], [], []] }, out := [] }) ∧
    execute junk7 20 length_writer [] get_class World.start
      = .ok ({ has_value := false, value := 0 }, [],
          { heap := { one_array with data := [[42, 0, 0], [], [], []] }, out := [42] }) := by
  decide

/-- C23, amended: for every live handle `h` of an array of length `n` (a buffer
of `n + 1` cells whose cell 0 holds `n`), arrays of length 1 included, every
index `i` with `0 <= i < n` and every value `v`, `iastore(h, i, v)` completes,
`arraylength` on `h` pushes `n` after the `iastore` as before it, and for every
index `j != i` with `0 <= j < n`, `iaload(h, j)` pushes the same value after the
`iastore` as before it. -/
theorem element_write_keeps_length (junk : Nat → Int)
    (call : method_t → List Int → World → Exec (optional_value_t × World))
    (cls : class_file_t) (m1 m2 : method_t) (f g : Frame) (w : World)
    (h i v : Int) (arr : List Int) (n : Nat)
    (hlive : heap_get w.heap h = .ok arr) (hlen : arr.length = n + 1)
    (hn : n ≤ 2147483647) (hlen0 : arr[0]? = some (n : Int))
    (hi0 : 0 ≤ i) (hi1 : i < n)
    (hop1 : fetch m1.code.code f.counter = .ok i_iastore.byte)
    (hf : 3 ≤ f.top) (hf1 : f.stack[f.top - 1]? = some v)
    (hf2 : f.stack[f.top - 2]? = some i) (hf3 : f.stack[f.top - 3]? = some h)
    (hop2 : fetch m2.code.code g.counter = .ok i_arraylength.byte)
    (hg1 : 1 ≤ g.top) (hg2 : g.stack[g.top - 1]? = some h) :
    ∃ w1 : World,
      step junk call cls m1 f w
        = .ok (.next { f with top := f.top - 3, counter := (f.counter + 1) % 4294967296 } w1) ∧
      step junk call cls m2 g w
        = .ok (.next { g with
                  stack := g.stack.set (g.top - 1) (n : Int)
                  counter := (g.counter + 1) % 4294967296 } w) ∧
      step junk call cls m2 g w1
        = .ok (.next { g with
                  stack := g.stack.set (g.top - 1) (n : Int)
                  counter := (g.counter + 1) % 4294967296 } w1) ∧
      ∀ (j x : Int) (m3 : method_t) (g3 : Frame), 0 ≤ j → j < n → j ≠ i →
        arr[j.toNat + 1]? = some x →
        fetch m3.code.code g3.counter = .ok i_iaload.byte → 2 ≤ g3.top →
        g3.stack[g3.top - 1]? = some j → g3.stack[g3.top - 2]? = some h →
        step junk call cls m3 g3 w
          = .ok (.next { g3 with
                    stack := g3.stack.set (g3.top - 2) x
                    top := g3.top - 1
                    counter := (g3.counter + 1) % 4294967296 } w) ∧
        step junk call cls m3 g3 w1
          = .ok (.next { g3 with
                    stack := g3.stack.set (g3.top - 2) x
                    top := g3.top - 1
                    counter := (g3.counter + 1) % 4294967296 } w1) := by
  have hc := cell_ok i hi0 (by omega)
  have hk : i.toNat + 1 < arr.length := by omega
  have hget1 := heap_get_set w.heap h arr (arr.set (i.toNat + 1) v) hlive
  refine ⟨_, step_iastore junk call cls m1 f w h i v arr _ hop1 hf hf1 hf2 hf3 hlive hc hk,
    step_arraylength junk call cls m2 g w h n arr hop2 hg1 hg2 hlive hlen0,
    step_arraylength junk call cls m2 g _ h n _ hop2 hg1 hg2 hget1 ?_, ?_⟩
  · rw [List.getElem?_set_ne (by omega)]
    exact hlen0
  · intro j x m3 g3 hj0 hj1 hji hx hop3 hg3 hg31 hg32
    have hcj := cell_ok j hj0 (by omega)
    refine ⟨step_iaload junk call cls m3 g3 w h j x arr _ hop3 hg3 hg31 hg32 hlive hcj hx,
      step_iaload junk call cls m3 g3 _ h j x _ _ hop3 hg3 hg31 hg32 hget1 hcj ?_⟩
    rw [List.getElem?_set_ne (by omega)]
    exact hx

/-- C23 amended on an array of length 1, where writing 42 at index 0 keeps the
length 1, and on a new array of length 2, where writing 42 at index 1 keeps the
length 2 and the element at index 0. -/
theorem element_write_keeps_length_witness :
    (∃ w1 : World,
      step junk7 call49 get_class (single i_iastore)
          { stack := [0, 0, 42], top := 3, counter := 0, locals := [] }
          { heap := short_array, out := [] }
        = .ok (.next { stack := [0, 0, 42], top := 0, counter := 1, locals := [] } w1) ∧
      step junk7 call49 get_class (single i_arraylength)
          { stack := [0, 0], top := 1, counter := 0, locals := [] }
          { heap := short_array, out := [] }
        = .ok (.next { stack := [1, 0], top := 1, counter := 1, locals := [] }
            { heap := short_array, out := [] }) ∧
      step junk7 call49 get_class (single i_arraylength)
          { stack := [0, 0], top := 1, counter := 0, locals := [] } w1
        = .ok (.next { stack := [1, 0], top := 1, counter := 1, locals := [] } w1)) ∧
    ∃ w1 : World,
      step junk7 call49 get_class (single i_iastore)
          { stack := [0, 1, 42], top := 3, counter := 0, locals := [] }
          { heap := one_array, out := [] }
        = .ok (.next { stack := [0, 1, 42], top := 0, counter := 1, locals := [] } w1) ∧
      step junk7 call49 get_class (single i_arraylength)
          { stack := [0, 0], top := 1, counter := 0, locals := [] }
          { heap := one_array, out := [] }
        = .ok (.next { stack := [2, 0], top := 1, counter := 1, locals := [] }
            { heap := one_array, out := [] }) ∧
      step junk7 call49 get_class (single i_arraylength)
          { stack := [0, 0], top := 1, counter := 0, locals := [] } w1
        = .ok (.next { stack := [2, 0], top := 1, counter := 1, locals := [] } w1) ∧
      step junk7 call49 get_class (single i_iaload)
          { stack := [0, 0], top := 2, counter := 0, locals := [] }
          { heap := one_array, out := [] }
        = .ok (.next { stack := [0, 0], top := 1, counter := 1, locals := [] }
            { heap := one_array, out := [] }) ∧
      step junk7 call49 get_class (single i_iaload)
          { stack := [0, 0], top := 2, counter := 0, locals := [] } w1
        = .ok (.next { stack := [0, 0], top := 1, counter := 1, locals := [] } w1) :=
  ⟨(element_write_keeps_length junk7 call49 get_class (single i_iastore) (single i_arraylength)
      { stack := [0, 0, 42], top := 3, counter := 0, locals := [] }
      { stack := [0, 0], top := 1, counter := 0, locals := [] }
      { heap := short_array, out := [] } 0 0 42 [1, 5] 1
      (by decide) (by decide) (by decide) (by decide) (by decide) (by decide) (by decide)
      (by decide) (by decide) (by decide) (by decide) (by decide) (by decide)
      (by decide)).imp fun _ h => ⟨h.1, h.2.1, h.2.2.1⟩,
   (element_write_keeps_length junk7 call49 get_class (single i_iastore) (single i_arraylength)
      { stack := [0, 1, 42], top := 3, counter := 0, locals := [] }
      { stack := [0, 0], top := 1, counter := 0, locals := [] }
      { heap := one_array, out := [] } 0 1 42 [2, 0, 0] 2
      (by decide) (by decide) (by decide) (by decide) (by decide) (by decide) (by decide)
      (by decide) (by decide) (by decide) (by decide) (by decide) (by decide)
      (by decide)).imp fun _ h =>
        ⟨h.1, h.2.1, h.2.2.1,
         h.2.2.2 0 0 (single i_iaload) { stack := [0, 0], top := 2, counter := 0, locals := [] }
           (by decide) (by decide) (by decide) (by decide) (by decide) (by decide) (by decide)
           (by decide)⟩⟩

end TeenyJVM
